import Mathlib

/-!
Verification development for the content compilation and storage pipeline of
the `anan_blog` repository: a shallow embedding of the frontmatter/markdown
parser, the filesystem scanner, the compiler orchestrator and the storage
engine, together with theorems settling the specified properties.

Rust strings are embedded as `List Char` (UTF-8 byte order on Rust `str`
coincides with code-point order on `List Char`); `Vec<T>` as `List T`;
fallible operations return `Except` or `Option`.
-/

namespace AnanBlog

/-- Characters of a string literal, used to write `List Char` constants. -/
def strL (s : String) : List Char := s.data

/-- Embedding of Rust `str::starts_with`: `startsWithL p s` holds when `p`
is a prefix of `s`. -/
def startsWithL : List Char → List Char → Bool
  | [], _ => true
  | _ :: _, [] => false
  | a :: p, b :: s => a == b && startsWithL p s

/-- Embedding of Rust `str::contains`: `containsL p s` holds when `p`
occurs as a contiguous substring of `s`. -/
def containsL (p : List Char) : List Char → Bool
  | [] => startsWithL p []
  | b :: s => startsWithL p (b :: s) || containsL p s

theorem startsWithL_nil (s : List Char) : startsWithL [] s = true := by
  cases s <;> rfl

theorem startsWithL_nil_right {p : List Char} (h : startsWithL p [] = true) :
    p = [] := by
  cases p with
  | nil => rfl
  | cons a p => simp [startsWithL] at h

theorem startsWithL_cons {a b : Char} {p s : List Char} :
    startsWithL (a :: p) (b :: s) = true ↔ a = b ∧ startsWithL p s = true := by
  simp [startsWithL]

theorem containsL_nil_pat (s : List Char) : containsL [] s = true := by
  cases s <;> simp [containsL, startsWithL_nil]

theorem containsL_nil_right {p : List Char} (h : containsL p [] = true) :
    p = [] := by
  cases p with
  | nil => rfl
  | cons a p => simp [containsL, startsWithL] at h

theorem containsL_of_startsWithL {p s : List Char}
    (h : startsWithL p s = true) : containsL p s = true := by
  cases s with
  | nil => simpa [containsL] using h
  | cons b s => simp [containsL, h]

theorem containsL_cons_of {p : List Char} {c : Char} {s : List Char}
    (h : containsL p s = true) : containsL p (c :: s) = true := by
  simp [containsL, h]

theorem containsL_cons_elim {p : List Char} {c : Char} {s : List Char}
    (h : containsL p (c :: s) = true) :
    startsWithL p (c :: s) = true ∨ containsL p s = true := by
  simpa [containsL] using h

theorem startsWithL_length {p s : List Char} (h : startsWithL p s = true) :
    p.length ≤ s.length := by
  induction p generalizing s with
  | nil => simp
  | cons a p ih =>
    cases s with
    | nil => simp [startsWithL] at h
    | cons b s =>
      rcases startsWithL_cons.1 h with ⟨_, h2⟩
      simpa using ih h2

theorem startsWithL_append_self (x t : List Char) :
    startsWithL x (x ++ t) = true := by
  induction x with
  | nil => simp [startsWithL_nil]
  | cons a x ih => simpa [startsWithL] using ih

/-- A prefix of `a ++ t` that is no longer than `a` is a prefix of `a`. -/
theorem startsWithL_append_left {p a t : List Char}
    (h : startsWithL p (a ++ t) = true) (hl : p.length ≤ a.length) :
    startsWithL p a = true := by
  induction a generalizing p with
  | nil =>
    cases p with
    | nil => rfl
    | cons c p => simp at hl
  | cons b a ih =>
    cases p with
    | nil => rfl
    | cons c p =>
      rcases startsWithL_cons.1 h with ⟨hc, h2⟩
      exact startsWithL_cons.2 ⟨hc, ih h2 (by simpa using hl)⟩

/-- If `p` is a prefix of `a ++ t` and `a` is no longer than `p`, then `a`
is a prefix of `p`. -/
theorem startsWithL_append_right {p a t : List Char}
    (h : startsWithL p (a ++ t) = true) (hl : a.length ≤ p.length) :
    startsWithL a p = true := by
  induction a generalizing p with
  | nil => exact startsWithL_nil p
  | cons b a ih =>
    cases p with
    | nil => simp at hl
    | cons c p =>
      rcases startsWithL_cons.1 h with ⟨hc, h2⟩
      exact startsWithL_cons.2 ⟨hc.symm, ih h2 (by simpa using hl)⟩

/-- Two prefixes of the same string are comparable: the shorter one is a
prefix of the longer one. -/
theorem startsWithL_comm {a b s : List Char}
    (ha : startsWithL a s = true) (hb : startsWithL b s = true)
    (hl : a.length ≤ b.length) : startsWithL a b = true := by
  induction s generalizing a b with
  | nil =>
    rcases startsWithL_nil_right ha with rfl
    exact startsWithL_nil b
  | cons c s ih =>
    cases a with
    | nil => exact startsWithL_nil b
    | cons x a =>
      cases b with
      | nil => simp at hl
      | cons y b =>
        rcases startsWithL_cons.1 ha with ⟨hx, ha2⟩
        rcases startsWithL_cons.1 hb with ⟨hy, hb2⟩
        exact startsWithL_cons.2 ⟨hx.trans hy.symm, ih ha2 hb2 (by simpa using hl)⟩

/-- Substring occurrence characterised by a starting index. -/
theorem containsL_iff (p s : List Char) :
    containsL p s = true ↔ ∃ i, startsWithL p (s.drop i) = true := by
  constructor
  · intro h
    induction s with
    | nil => exact ⟨0, by simpa [containsL] using h⟩
    | cons c s ih =>
      rcases containsL_cons_elim h with h1 | h2
      · exact ⟨0, h1⟩
      · rcases ih h2 with ⟨i, hi⟩
        exact ⟨i + 1, by simpa using hi⟩
  · rintro ⟨i, hi⟩
    induction s generalizing i with
    | nil =>
      rcases startsWithL_nil_right (by simpa using hi) with rfl
      exact containsL_nil_pat []
    | cons c s ih =>
      cases i with
      | zero => exact containsL_of_startsWithL (by simpa using hi)
      | succ i => exact containsL_cons_of (ih i (by simpa using hi))

theorem containsL_append_of_right {p t : List Char} (a : List Char)
    (h : containsL p t = true) : containsL p (a ++ t) = true := by
  induction a with
  | nil => simpa using h
  | cons c a ih => exact containsL_cons_of ih

/-- A prefix stays a prefix when the target is extended on the right. -/
theorem startsWithL_append_extend {p a : List Char} (t : List Char)
    (h : startsWithL p a = true) : startsWithL p (a ++ t) = true := by
  induction a generalizing p with
  | nil =>
    rcases startsWithL_nil_right h with rfl
    exact startsWithL_nil t
  | cons b a ih =>
    cases p with
    | nil => exact startsWithL_nil _
    | cons c p =>
      rcases startsWithL_cons.1 h with ⟨hc, h2⟩
      exact startsWithL_cons.2 ⟨hc, ih h2⟩

theorem containsL_append_of_left {p a : List Char} (t : List Char)
    (h : containsL p a = true) : containsL p (a ++ t) = true := by
  rcases (containsL_iff p a).1 h with ⟨i, hi⟩
  rcases le_or_lt a.length i with hle | hlt
  · rcases startsWithL_nil_right (by
      simpa [List.drop_eq_nil_of_le hle] using hi) with rfl
    exact containsL_nil_pat _
  · refine (containsL_iff p (a ++ t)).2 ⟨i, ?_⟩
    rw [List.drop_append_of_le_length (le_of_lt hlt)]
    exact startsWithL_append_extend t hi

/-- Occurrences inside an appended string either lie in the right part or
start inside the left part. -/
theorem containsL_append_elim {x a t : List Char}
    (h : containsL x (a ++ t) = true) :
    containsL x t = true ∨
      ∃ i, i < a.length ∧ startsWithL x (a.drop i ++ t) = true := by
  induction a with
  | nil => exact Or.inl (by simpa using h)
  | cons c a ih =>
    rcases containsL_cons_elim (by simpa using h) with h1 | h2
    · exact Or.inr ⟨0, by simp, by simpa using h1⟩
    · rcases ih h2 with hl | ⟨i, hi, hs⟩
      · exact Or.inl hl
      · exact Or.inr ⟨i + 1, by simpa using hi, by simpa using hs⟩

theorem containsL_of_drop {p s : List Char} {k : Nat}
    (h : containsL p (s.drop k) = true) : containsL p s = true := by
  rcases (containsL_iff _ _).1 h with ⟨i, hi⟩
  exact (containsL_iff _ _).2 ⟨k + i, by rwa [← List.drop_drop]⟩

theorem drop_ne_nil {q : List Char} {j : Nat} (h : j < q.length) :
    q.drop j ≠ [] := by
  intro hd
  have hlen : q.length - j = 0 := by simpa using congrArg List.length hd
  omega

theorem drop_cons_self {q : List Char} {j : Nat} (h : j < q.length) :
    ∃ c, q.drop j = c :: q.drop (j + 1) := by
  exact ⟨q[j], List.drop_eq_getElem_cons h⟩

theorem startsWithL_eq_append {p s : List Char}
    (h : startsWithL p s = true) : s = p ++ s.drop p.length := by
  induction p generalizing s with
  | nil => simp
  | cons a p ih =>
    cases s with
    | nil => simp [startsWithL] at h
    | cons b s =>
      rcases startsWithL_cons.1 h with ⟨rfl, h2⟩
      simpa using ih h2

/-- Embedding of Rust `str::replace(pat, rep)`: scan left to right; at each
position, if `pat` matches, emit `rep` and resume after the match, else copy
one character. The fuel argument makes the recursion structural; every step
consumes at least one input character, so fuel `s.length` is always enough
(`replaceL` below). For the degenerate empty pattern — which the pipeline
never produces — the scan copies the input unchanged. -/
def replaceGo (pat rep : List Char) : Nat → List Char → List Char
  | 0, s => s
  | _ + 1, [] => []
  | fuel + 1, c :: rest =>
    if pat ≠ [] ∧ startsWithL pat (c :: rest) = true then
      rep ++ replaceGo pat rep fuel ((c :: rest).drop pat.length)
    else
      c :: replaceGo pat rep fuel rest

/-- Embedding of Rust `String::replace` as used by `replace_attachment_links`. -/
def replaceL (s pat rep : List Char) : List Char := replaceGo pat rep s.length s

/-- Any prefix of the input either survives as a prefix of the output or the
replacement string occurs in the output. -/
theorem replaceGo_startsWith_or {pat rep : List Char} :
    ∀ (fuel : Nat) (s x : List Char), startsWithL x s = true →
      startsWithL x (replaceGo pat rep fuel s) = true ∨
      containsL rep (replaceGo pat rep fuel s) = true := by
  intro fuel
  induction fuel with
  | zero => intro s x h; exact Or.inl (by simpa [replaceGo] using h)
  | succ fuel ih =>
    intro s x h
    cases s with
    | nil =>
      rcases startsWithL_nil_right h with rfl
      exact Or.inl (by simp [replaceGo, startsWithL_nil])
    | cons c rest =>
      by_cases hg : pat ≠ [] ∧ startsWithL pat (c :: rest) = true
      · right
        simp only [replaceGo, if_pos hg]
        exact containsL_of_startsWithL (startsWithL_append_self rep _)
      · simp only [replaceGo, if_neg hg]
        cases x with
        | nil => exact Or.inl (startsWithL_nil _)
        | cons y x =>
          rcases startsWithL_cons.1 h with ⟨hy, hx⟩
          rcases ih rest x hx with h1 | h2
          · exact Or.inl (startsWithL_cons.2 ⟨hy, h1⟩)
          · exact Or.inr (containsL_cons_of h2)

/-- Any substring of the input either survives in the output or the
replacement string occurs in the output. -/
theorem replaceGo_contains_or {pat rep : List Char} :
    ∀ (fuel : Nat) (s q : List Char), containsL q s = true →
      containsL q (replaceGo pat rep fuel s) = true ∨
      containsL rep (replaceGo pat rep fuel s) = true := by
  intro fuel
  induction fuel with
  | zero => intro s q h; exact Or.inl (by simpa [replaceGo] using h)
  | succ fuel ih =>
    intro s q h
    cases s with
    | nil =>
      rcases containsL_nil_right h with rfl
      exact Or.inl (containsL_nil_pat _)
    | cons c rest =>
      by_cases hg : pat ≠ [] ∧ startsWithL pat (c :: rest) = true
      · right
        simp only [replaceGo, if_pos hg]
        exact containsL_of_startsWithL (startsWithL_append_self rep _)
      · simp only [replaceGo, if_neg hg]
        rcases containsL_cons_elim h with h1 | h2
        · cases q with
          | nil => exact Or.inl (containsL_nil_pat _)
          | cons y x =>
            rcases startsWithL_cons.1 h1 with ⟨hy, hx⟩
            rcases replaceGo_startsWith_or fuel rest x hx with hs | hr
            · exact Or.inl (containsL_of_startsWithL (startsWithL_cons.2 ⟨hy, hs⟩))
            · exact Or.inr (containsL_cons_of hr)
        · rcases ih rest q h2 with h3 | h4
          · exact Or.inl (containsL_cons_of h3)
          · exact Or.inr (containsL_cons_of h4)

/-- If the pattern occurs in the input, the replacement occurs in the output. -/
theorem replaceGo_contains_rep {pat rep : List Char} (hne : pat ≠ []) :
    ∀ (fuel : Nat) (s : List Char), s.length ≤ fuel →
      containsL pat s = true →
      containsL rep (replaceGo pat rep fuel s) = true := by
  intro fuel
  induction fuel with
  | zero =>
    intro s hl h
    cases s with
    | nil => exact absurd (containsL_nil_right h) hne
    | cons c rest => simp at hl
  | succ fuel ih =>
    intro s hl h
    cases s with
    | nil => exact absurd (containsL_nil_right h) hne
    | cons c rest =>
      by_cases hg : pat ≠ [] ∧ startsWithL pat (c :: rest) = true
      · simp only [replaceGo, if_pos hg]
        exact containsL_of_startsWithL (startsWithL_append_self rep _)
      · have hsw : startsWithL pat (c :: rest) = false := by
          cases hsw' : startsWithL pat (c :: rest) with
          | false => rfl
          | true => exact absurd ⟨hne, hsw'⟩ hg
        simp only [replaceGo, if_neg hg]
        rcases containsL_cons_elim h with h1 | h2
        · rw [hsw] at h1; cases h1
        · exact containsL_cons_of (ih rest (Nat.succ_le_succ_iff.1 hl) h2)

/-- Prefix-transfer: under the no-overlap side conditions between the tails
of `q` and the replacement, a proper tail of `q` that prefixes the output
already prefixes the input. -/
theorem replaceGo_prefix_transfer {pat rep q : List Char}
    (hC : ∀ j, j < q.length → 0 < j →
      startsWithL (q.drop j) rep = false ∧ startsWithL rep (q.drop j) = false) :
    ∀ (fuel : Nat) (s : List Char) (j : Nat), j < q.length → 0 < j →
      startsWithL (q.drop j) (replaceGo pat rep fuel s) = true →
      startsWithL (q.drop j) s = true := by
  intro fuel
  induction fuel with
  | zero => intro s j _ _ h; simpa [replaceGo] using h
  | succ fuel ih =>
    intro s j hjl hj0 h
    cases s with
    | nil =>
      simp only [replaceGo] at h
      exact absurd (startsWithL_nil_right h) (drop_ne_nil hjl)
    | cons c rest =>
      by_cases hg : pat ≠ [] ∧ startsWithL pat (c :: rest) = true
      · rw [show replaceGo pat rep (fuel + 1) (c :: rest)
            = rep ++ replaceGo pat rep fuel ((c :: rest).drop pat.length) from by
              simp only [replaceGo, if_pos hg]] at h
        rcases le_or_lt (q.drop j).length rep.length with hle | hlt
        · exact absurd (startsWithL_append_left h hle) (by simp [(hC j hjl hj0).1])
        · exact absurd (startsWithL_append_right h (le_of_lt hlt))
            (by simp [(hC j hjl hj0).2])
      · rw [show replaceGo pat rep (fuel + 1) (c :: rest)
            = c :: replaceGo pat rep fuel rest from by
              simp only [replaceGo, if_neg hg]] at h
        rcases drop_cons_self hjl with ⟨a, hd⟩
        rw [hd] at h
        rcases startsWithL_cons.1 h with ⟨ha, htail⟩
        rcases lt_or_ge (j + 1) q.length with hlt | hge
        · have := ih rest (j + 1) hlt (Nat.succ_pos j) htail
          rw [hd]
          exact startsWithL_cons.2 ⟨ha, this⟩
        · have hnil : q.drop (j + 1) = [] := List.drop_eq_nil_of_le hge
          rw [hd, hnil]
          exact startsWithL_cons.2 ⟨ha, startsWithL_nil rest⟩

/-- Elimination: after replacing a non-empty pattern, no occurrence of the
pattern remains, provided the replacement neither contains the pattern nor
overlaps it at block boundaries. -/
theorem replaceGo_not_contains_pat {pat rep : List Char} (hne : pat ≠ [])
    (hA : containsL pat rep = false)
    (hB : ∀ i, i < rep.length → rep.length - i < pat.length →
      startsWithL (rep.drop i) pat = false)
    (hC : ∀ j, j < pat.length → 0 < j →
      startsWithL (pat.drop j) rep = false ∧ startsWithL rep (pat.drop j) = false) :
    ∀ (fuel : Nat) (s : List Char), s.length ≤ fuel →
      containsL pat (replaceGo pat rep fuel s) = false := by
  intro fuel
  induction fuel with
  | zero =>
    intro s hl
    have hs : s = [] := List.length_eq_zero.1 (Nat.le_zero.1 hl)
    subst hs
    cases hp : containsL pat (replaceGo pat rep 0 []) with
    | false => rfl
    | true => exact absurd (containsL_nil_right (by simpa [replaceGo] using hp)) hne
  | succ fuel ih =>
    intro s hl
    cases s with
    | nil =>
      cases hp : containsL pat (replaceGo pat rep (fuel + 1) []) with
      | false => rfl
      | true => exact absurd (containsL_nil_right (by simpa [replaceGo] using hp)) hne
    | cons c rest =>
      by_cases hg : pat ≠ [] ∧ startsWithL pat (c :: rest) = true
      · rw [show replaceGo pat rep (fuel + 1) (c :: rest)
            = rep ++ replaceGo pat rep fuel ((c :: rest).drop pat.length) from by
              simp only [replaceGo, if_pos hg]]
        have hlen : ((c :: rest).drop pat.length).length ≤ fuel := by
          have hp1 : 1 ≤ pat.length := by
            cases pat with
            | nil => exact absurd rfl hne
            | cons a p => simp
          simp only [List.length_drop, List.length_cons]
          simp only [List.length_cons] at hl
          omega
        have hT := ih ((c :: rest).drop pat.length) hlen
        cases hcon : containsL pat
            (rep ++ replaceGo pat rep fuel ((c :: rest).drop pat.length)) with
        | false => rfl
        | true =>
          exfalso
          rcases containsL_append_elim hcon with h1 | ⟨i, hi, hs⟩
          · simp [hT] at h1
          · rcases le_or_lt pat.length (rep.drop i).length with hle | hlt
            · have := (containsL_iff pat rep).2 ⟨i, startsWithL_append_left hs hle⟩
              simp [hA] at this
            · have hrp := startsWithL_append_right hs (le_of_lt hlt)
              have hBi := hB i hi (by simpa [List.length_drop] using hlt)
              simp [hBi] at hrp
      · have hsw : startsWithL pat (c :: rest) = false := by
          cases hsw' : startsWithL pat (c :: rest) with
          | false => rfl
          | true => exact absurd ⟨hne, hsw'⟩ hg
        rw [show replaceGo pat rep (fuel + 1) (c :: rest)
            = c :: replaceGo pat rep fuel rest from by
              simp only [replaceGo, if_neg hg]]
        have hT := ih rest (Nat.succ_le_succ_iff.1 hl)
        cases hcon : containsL pat (c :: replaceGo pat rep fuel rest) with
        | false => rfl
        | true =>
          exfalso
          rcases containsL_cons_elim hcon with h1 | h2
          · cases pat with
            | nil => exact hne rfl
            | cons p0 pat' =>
              rcases startsWithL_cons.1 h1 with ⟨hp0, hrest⟩
              rcases Nat.lt_or_ge 1 (p0 :: pat').length with h1l | h1g
              · have htr := replaceGo_prefix_transfer hC fuel rest 1
                  h1l Nat.one_pos (by simpa using hrest)
                have : startsWithL (p0 :: pat') (c :: rest) = true :=
                  startsWithL_cons.2 ⟨hp0, by simpa using htr⟩
                simp [hsw] at this
              · have hp' : pat' = [] := by
                  simpa using List.length_eq_zero.1 (by simpa using h1g)
                subst hp'
                have : startsWithL [p0] (c :: rest) = true :=
                  startsWithL_cons.2 ⟨hp0, startsWithL_nil rest⟩
                simp [hsw] at this
          · simp [hT] at h2

/-- Non-creation: replacing `pat` by `rep` cannot create a new occurrence of
an unrelated string `q`, under the analogous boundary side conditions. -/
theorem replaceGo_not_contains {pat rep q : List Char}
    (hA : containsL q rep = false)
    (hB : ∀ i, i < rep.length → rep.length - i < q.length →
      startsWithL (rep.drop i) q = false)
    (hC : ∀ j, j < q.length → 0 < j →
      startsWithL (q.drop j) rep = false ∧ startsWithL rep (q.drop j) = false) :
    ∀ (fuel : Nat) (s : List Char), containsL q s = false →
      containsL q (replaceGo pat rep fuel s) = false := by
  intro fuel
  induction fuel with
  | zero => intro s hs; simpa [replaceGo] using hs
  | succ fuel ih =>
    intro s hs
    cases s with
    | nil => simpa [replaceGo] using hs
    | cons c rest =>
      have hparts : startsWithL q (c :: rest) = false ∧ containsL q rest = false := by
        constructor
        · cases hx : startsWithL q (c :: rest) with
          | false => rfl
          | true => simp [containsL_of_startsWithL hx] at hs
        · cases hx : containsL q rest with
          | false => rfl
          | true => simp [containsL_cons_of hx] at hs
      by_cases hg : pat ≠ [] ∧ startsWithL pat (c :: rest) = true
      · rw [show replaceGo pat rep (fuel + 1) (c :: rest)
            = rep ++ replaceGo pat rep fuel ((c :: rest).drop pat.length) from by
              simp only [replaceGo, if_pos hg]]
        have hdropf : containsL q ((c :: rest).drop pat.length) = false := by
          cases hx : containsL q ((c :: rest).drop pat.length) with
          | false => rfl
          | true => simp [containsL_of_drop hx] at hs
        have hT := ih ((c :: rest).drop pat.length) hdropf
        cases hcon : containsL q
            (rep ++ replaceGo pat rep fuel ((c :: rest).drop pat.length)) with
        | false => rfl
        | true =>
          exfalso
          rcases containsL_append_elim hcon with h1 | ⟨i, hi, hsp⟩
          · simp [hT] at h1
          · rcases le_or_lt q.length (rep.drop i).length with hle | hlt
            · have := (containsL_iff q rep).2 ⟨i, startsWithL_append_left hsp hle⟩
              simp [hA] at this
            · have hrp := startsWithL_append_right hsp (le_of_lt hlt)
              have hBi := hB i hi (by simpa [List.length_drop] using hlt)
              simp [hBi] at hrp
      · rw [show replaceGo pat rep (fuel + 1) (c :: rest)
            = c :: replaceGo pat rep fuel rest from by
              simp only [replaceGo, if_neg hg]]
        have hT := ih rest hparts.2
        cases hcon : containsL q (c :: replaceGo pat rep fuel rest) with
        | false => rfl
        | true =>
          exfalso
          rcases containsL_cons_elim hcon with h1 | h2
          · cases q with
            | nil => simp [containsL_nil_pat] at hs
            | cons q0 q' =>
              rcases startsWithL_cons.1 h1 with ⟨hq0, hrest⟩
              rcases Nat.lt_or_ge 1 (q0 :: q').length with h1l | h1g
              · have htr := replaceGo_prefix_transfer hC fuel rest 1
                  h1l Nat.one_pos (by simpa using hrest)
                have : startsWithL (q0 :: q') (c :: rest) = true :=
                  startsWithL_cons.2 ⟨hq0, by simpa using htr⟩
                simp [hparts.1] at this
              · have hq' : q' = [] := by
                  simpa using List.length_eq_zero.1 (by simpa using h1g)
                subst hq'
                have : startsWithL [q0] (c :: rest) = true :=
                  startsWithL_cons.2 ⟨hq0, startsWithL_nil rest⟩
                simp [hparts.1] at this
          · simp [hT] at h2

/-- Preservation of prefixes: if no occurrence of the pattern can start
inside `q`, a prefix `q` of the input prefixes the output. -/
theorem replaceGo_startsWith_preserved {pat rep : List Char} :
    ∀ (fuel : Nat) (q s : List Char),
      (∀ j, j < q.length →
        startsWithL pat (q.drop j) = false ∧ startsWithL (q.drop j) pat = false) →
      startsWithL q s = true → startsWithL q (replaceGo pat rep fuel s) = true := by
  intro fuel
  induction fuel with
  | zero => intro q s _ h; simpa [replaceGo] using h
  | succ fuel ih =>
    intro q s hI h
    cases s with
    | nil =>
      rcases startsWithL_nil_right h with rfl
      exact startsWithL_nil _
    | cons c rest =>
      by_cases hg : pat ≠ [] ∧ startsWithL pat (c :: rest) = true
      · cases q with
        | nil => exact startsWithL_nil _
        | cons y q' =>
          exfalso
          have hpos : 0 < (y :: q').length := by simp
          have h0 := hI 0 hpos
          simp only [List.drop_zero] at h0
          rcases le_or_lt (y :: q').length pat.length with hle | hlt
          · have := startsWithL_comm h hg.2 hle
            simp [h0.2] at this
          · have := startsWithL_comm hg.2 h (le_of_lt hlt)
            simp [h0.1] at this
      · rw [show replaceGo pat rep (fuel + 1) (c :: rest)
            = c :: replaceGo pat rep fuel rest from by
              simp only [replaceGo, if_neg hg]]
        cases q with
        | nil => exact startsWithL_nil _
        | cons y q' =>
          rcases startsWithL_cons.1 h with ⟨hy, hq'⟩
          have hI' : ∀ j, j < q'.length →
              startsWithL pat (q'.drop j) = false ∧
              startsWithL (q'.drop j) pat = false := by
            intro j hj
            have := hI (j + 1) (by simpa using Nat.succ_lt_succ hj)
            simpa using this
          exact startsWithL_cons.2 ⟨hy, ih q' rest hI' hq'⟩

/-- Preservation of substrings: if occurrences of the pattern cannot overlap
occurrences of `q` in either direction, every occurrence of `q` survives
the replacement. -/
theorem replaceGo_contains_preserved {pat rep q : List Char}
    (hI : ∀ j, j < q.length →
      startsWithL pat (q.drop j) = false ∧ startsWithL (q.drop j) pat = false)
    (hII : ∀ i, i < pat.length → 0 < i →
      startsWithL q (pat.drop i) = false ∧ startsWithL (pat.drop i) q = false) :
    ∀ (fuel : Nat) (s : List Char), containsL q s = true →
      containsL q (replaceGo pat rep fuel s) = true := by
  intro fuel
  induction fuel with
  | zero => intro s h; simpa [replaceGo] using h
  | succ fuel ih =>
    intro s h
    cases s with
    | nil =>
      rcases containsL_nil_right h with rfl
      exact containsL_nil_pat _
    | cons c rest =>
      by_cases hg : pat ≠ [] ∧ startsWithL pat (c :: rest) = true
      · rw [show replaceGo pat rep (fuel + 1) (c :: rest)
            = rep ++ replaceGo pat rep fuel ((c :: rest).drop pat.length) from by
              simp only [replaceGo, if_pos hg]]
        cases q with
        | nil => exact containsL_nil_pat _
        | cons y q' =>
          rcases (containsL_iff _ _).1 h with ⟨i, hi⟩
          rcases Nat.lt_or_ge i pat.length with hilt | hige
          · cases i with
            | zero =>
              exfalso
              have hpos : 0 < (y :: q').length := by simp
              have h0 := hI 0 hpos
              simp only [List.drop_zero] at h0 hi
              rcases le_or_lt (y :: q').length pat.length with hle | hlt
              · have := startsWithL_comm hi hg.2 hle
                simp [h0.2] at this
              · have := startsWithL_comm hg.2 hi (le_of_lt hlt)
                simp [h0.1] at this
            | succ i' =>
              exfalso
              have hsplit : (c :: rest) = pat ++ (c :: rest).drop pat.length :=
                startsWithL_eq_append hg.2
              have hdrop : (c :: rest).drop (i' + 1)
                  = pat.drop (i' + 1) ++ (c :: rest).drop pat.length := by
                conv_lhs => rw [hsplit]
                exact List.drop_append_of_le_length hilt.le
              rw [hdrop] at hi
              have hpos : 0 < i' + 1 := Nat.succ_pos i'
              rcases le_or_lt (y :: q').length (pat.drop (i' + 1)).length with hle | hlt
              · have := startsWithL_append_left hi hle
                simp [(hII (i' + 1) hilt hpos).1] at this
              · have := startsWithL_append_right hi (le_of_lt hlt)
                simp [(hII (i' + 1) hilt hpos).2] at this
          · have hdrop : (c :: rest).drop i
                = ((c :: rest).drop pat.length).drop (i - pat.length) := by
              rw [List.drop_drop]
              congr 1
              omega
            rw [hdrop] at hi
            have hcont : containsL (y :: q') ((c :: rest).drop pat.length) = true :=
              (containsL_iff _ _).2 ⟨i - pat.length, hi⟩
            exact containsL_append_of_right rep (ih _ hcont)
      · rw [show replaceGo pat rep (fuel + 1) (c :: rest)
            = c :: replaceGo pat rep fuel rest from by
              simp only [replaceGo, if_neg hg]]
        rcases containsL_cons_elim h with h1 | h2
        · have := @replaceGo_startsWith_preserved pat rep (fuel + 1) q (c :: rest) hI h1
          rw [show replaceGo pat rep (fuel + 1) (c :: rest)
              = c :: replaceGo pat rep fuel rest from by
                simp only [replaceGo, if_neg hg]] at this
          exact containsL_of_startsWithL this
        · exact containsL_cons_of (ih rest h2)

/-! Wrappers of the replacement lemmas at the `replaceL` level (the fuel
`s.length` used by `replaceL` trivially satisfies the fuel bounds). -/

theorem replaceL_not_contains_pat {pat rep : List Char} (hne : pat ≠ [])
    (hA : containsL pat rep = false)
    (hB : ∀ i, i < rep.length → rep.length - i < pat.length →
      startsWithL (rep.drop i) pat = false)
    (hC : ∀ j, j < pat.length → 0 < j →
      startsWithL (pat.drop j) rep = false ∧ startsWithL rep (pat.drop j) = false)
    (s : List Char) : containsL pat (replaceL s pat rep) = false :=
  replaceGo_not_contains_pat hne hA hB hC s.length s (le_refl _)

theorem replaceL_not_contains {pat rep q : List Char}
    (hA : containsL q rep = false)
    (hB : ∀ i, i < rep.length → rep.length - i < q.length →
      startsWithL (rep.drop i) q = false)
    (hC : ∀ j, j < q.length → 0 < j →
      startsWithL (q.drop j) rep = false ∧ startsWithL rep (q.drop j) = false)
    (s : List Char) (hs : containsL q s = false) :
    containsL q (replaceL s pat rep) = false :=
  replaceGo_not_contains hA hB hC s.length s hs

theorem replaceL_contains_rep {pat rep : List Char} (hne : pat ≠ [])
    (s : List Char) (h : containsL pat s = true) :
    containsL rep (replaceL s pat rep) = true :=
  replaceGo_contains_rep hne s.length s (le_refl _) h

theorem replaceL_contains_or {pat rep : List Char} (s q : List Char)
    (h : containsL q s = true) :
    containsL q (replaceL s pat rep) = true ∨
    containsL rep (replaceL s pat rep) = true :=
  replaceGo_contains_or s.length s q h

theorem replaceL_contains_preserved {pat rep q : List Char}
    (hI : ∀ j, j < q.length →
      startsWithL pat (q.drop j) = false ∧ startsWithL (q.drop j) pat = false)
    (hII : ∀ i, i < pat.length → 0 < i →
      startsWithL q (pat.drop i) = false ∧ startsWithL (pat.drop i) q = false)
    (s : List Char) (h : containsL q s = true) :
    containsL q (replaceL s pat rep) = true :=
  replaceGo_contains_preserved hI hII s.length s h

/-- Embedding of `replace_attachment_links` (`markdown.rs`): sort the
attachment `(original_name, new_name)` pairs by original-name length,
descending (stable, as Rust's `sort_by`), then for each pair replace the
patterns `./attachment/{original}` and `attachment/{original}` by
`attachment/{new}`. -/
def replaceAttachmentLinks (html : List Char)
    (attachmentMap : List (List Char × List Char)) : List Char :=
  let sorted := List.insertionSort
    (fun a b : List Char × List Char => b.1.length ≤ a.1.length) attachmentMap
  sorted.foldl (fun acc pr =>
    replaceL (replaceL acc (strL "./attachment/" ++ pr.1)
        (strL "attachment/" ++ pr.2))
      (strL "attachment/" ++ pr.1) (strL "attachment/" ++ pr.2)) html

/-- The attachment mapping of claim C1. -/
def c1map : List (List Char × List Char) :=
  [(strL "photo.png", strL "item_1.png"), (strL "photo_large.png", strL "item_2.png")]

theorem replaceAttachmentLinks_c1map (html : List Char) :
    replaceAttachmentLinks html c1map =
      replaceL (replaceL (replaceL (replaceL html
            (strL "./attachment/photo_large.png") (strL "attachment/item_2.png"))
          (strL "attachment/photo_large.png") (strL "attachment/item_2.png"))
        (strL "./attachment/photo.png") (strL "attachment/item_1.png"))
      (strL "attachment/photo.png") (strL "attachment/item_1.png") := by
  rfl

/-- C1: for every HTML string, rewriting with the mapping
`photo.png -> item_1.png`, `photo_large.png -> item_2.png` leaves no
occurrence of `attachment/photo.png` or `attachment/photo_large.png`;
if `attachment/photo.png` occurred then `attachment/item_1.png` occurs in
the result, and the longer name `photo_large.png` is rewritten to
`attachment/item_2.png` without being corrupted by the shorter pair. -/
theorem C1_replace_attachment_links (html : List Char) :
    containsL (strL "attachment/photo.png") (replaceAttachmentLinks html c1map) = false ∧
    containsL (strL "attachment/photo_large.png") (replaceAttachmentLinks html c1map) = false ∧
    (containsL (strL "attachment/photo.png") html = true →
      containsL (strL "attachment/item_1.png") (replaceAttachmentLinks html c1map) = true) ∧
    (containsL (strL "attachment/photo_large.png") html = true →
      containsL (strL "attachment/item_2.png") (replaceAttachmentLinks html c1map) = true) := by
  rw [replaceAttachmentLinks_c1map]
  set s1 := replaceL html (strL "./attachment/photo_large.png")
    (strL "attachment/item_2.png") with hs1
  set s2 := replaceL s1 (strL "attachment/photo_large.png")
    (strL "attachment/item_2.png") with hs2
  set s3 := replaceL s2 (strL "./attachment/photo.png")
    (strL "attachment/item_1.png") with hs3
  refine ⟨?_, ?_, ?_, ?_⟩
  · exact replaceL_not_contains_pat (by decide) (by decide)
      (by decide) (by decide) s3
  · have h2 : containsL (strL "attachment/photo_large.png") s2 = false :=
      replaceL_not_contains_pat (by decide) (by decide) (by decide) (by decide) s1
    have h3 : containsL (strL "attachment/photo_large.png") s3 = false :=
      replaceL_not_contains (by decide) (by decide) (by decide) s2 h2
    exact replaceL_not_contains (by decide) (by decide) (by decide) s3 h3
  · intro hq
    have h1 : containsL (strL "attachment/photo.png") s1 = true :=
      replaceL_contains_preserved (by decide) (by decide) html hq
    have h2 : containsL (strL "attachment/photo.png") s2 = true :=
      replaceL_contains_preserved (by decide) (by decide) s1 h1
    rcases @replaceL_contains_or (strL "./attachment/photo.png")
        (strL "attachment/item_1.png") s2 _ h2 with h3 | h3
    · exact replaceL_contains_rep (by decide) s3 h3
    · rcases @replaceL_contains_or (strL "attachment/photo.png")
          (strL "attachment/item_1.png") s3 _ h3 with h4 | h4
      · exact h4
      · exact h4
  · intro hq
    rcases @replaceL_contains_or (strL "./attachment/photo_large.png")
        (strL "attachment/item_2.png") html _ hq with h1 | h1
    · have h2 : containsL (strL "attachment/item_2.png") s2 = true :=
        replaceL_contains_rep (by decide) s1 h1
      have h3 : containsL (strL "attachment/item_2.png") s3 = true :=
        replaceL_contains_preserved (by decide) (by decide) s2 h2
      exact replaceL_contains_preserved (by decide) (by decide) s3 h3
    · have h2 : containsL (strL "attachment/item_2.png") s2 = true := by
        rcases @replaceL_contains_or (strL "attachment/photo_large.png")
            (strL "attachment/item_2.png") s1 _ h1 with h | h
        · exact h
        · exact h
      have h3 : containsL (strL "attachment/item_2.png") s3 = true :=
        replaceL_contains_preserved (by decide) (by decide) s2 h2
      exact replaceL_contains_preserved (by decide) (by decide) s3 h3

/-- Witness for C1 at a concrete HTML fragment containing both original
attachment names. -/
theorem C1_replace_attachment_links_witness :
    (containsL (strL "attachment/photo.png")
        (strL "<img src=attachment/photo.png> <img src=attachment/photo_large.png>") = true ∧
      containsL (strL "attachment/photo_large.png")
        (strL "<img src=attachment/photo.png> <img src=attachment/photo_large.png>") = true) ∧
    containsL (strL "attachment/item_1.png")
      (replaceAttachmentLinks
        (strL "<img src=attachment/photo.png> <img src=attachment/photo_large.png>") c1map) = true ∧
    containsL (strL "attachment/item_2.png")
      (replaceAttachmentLinks
        (strL "<img src=attachment/photo.png> <img src=attachment/photo_large.png>") c1map) = true :=
  ⟨⟨by decide, by decide⟩,
    (C1_replace_attachment_links
      (strL "<img src=attachment/photo.png> <img src=attachment/photo_large.png>")).2.2.1
      (by decide),
    (C1_replace_attachment_links
      (strL "<img src=attachment/photo.png> <img src=attachment/photo_large.png>")).2.2.2
      (by decide)⟩

/-! ## Frontmatter / markdown parser (`markdown.rs`) -/

/-- Embedding of the `Frontmatter` struct; string values are `List Char`.
The `extra` field holds the flattened unknown keys. -/
structure Frontmatter where
  title : Option (List Char)
  date : Option (List Char)
  author : Option (List Char)
  tags : Option (List (List Char))
  description : Option (List Char)
  time : Option (List Char)
  extra : List (List Char × List Char)
deriving DecidableEq

/-- The all-absent frontmatter built by `parse_frontmatter` when the input
does not start with the delimiter. -/
def emptyFrontmatter : Frontmatter :=
  ⟨none, none, none, none, none, none, []⟩

/-- Whitespace test used for trimming (space, tab, carriage return, newline,
matching Rust's `char::is_whitespace` on the ASCII inputs that appear here). -/
def isWsChar (c : Char) : Bool :=
  c == ' ' || c == '\t' || c == '\r' || c == '\n'

/-- Trim whitespace from both ends (Rust `str::trim`). -/
def trimL (s : List Char) : List Char :=
  ((s.dropWhile isWsChar).reverse.dropWhile isWsChar).reverse

/-- Trim leading whitespace (Rust `str::trim_start`). -/
def trimStartL (s : List Char) : List Char := s.dropWhile isWsChar

/-- Embedding of Rust `str::find` for a literal pattern: index of the first
occurrence. -/
def findIdxL (pat : List Char) : List Char → Option Nat
  | [] => if startsWithL pat [] = true then some 0 else none
  | c :: rest =>
    if startsWithL pat (c :: rest) = true then some 0
    else (findIdxL pat rest).map (· + 1)

/-- Split a string into lines at `\x0a`. -/
def splitLinesL (s : List Char) : List (List Char) :=
  let rec go : List Char → List Char → List (List Char)
    | acc, [] => [acc.reverse]
    | acc, c :: rest =>
      if c == '\n' then acc.reverse :: go [] rest else go (c :: acc) rest
  go [] s

/-- Split a line at its first `:` into key and value, if any. -/
def splitColon (line : List Char) : Option (List Char × List Char) :=
  match findIdxL [':'] line with
  | none => none
  | some i => some (line.take i, line.drop (i + 1))

/-- Simplified model of the external `serde_yaml` deserialization of one
frontmatter line into the `Frontmatter` struct: blank lines are skipped,
every other line must be a flat `key: value` pair; known keys populate the
named fields, unknown keys are preserved in `extra` (the flattened map).
A scalar value for `tags` is a type error (the field is a list of strings),
and a line without `:` is invalid YAML; both make deserialization fail.
Block/flow collections and multi-line scalars are outside this model. -/
def yamlLineStep (fm : Frontmatter) (line : List Char) : Option Frontmatter :=
  if trimL line = [] then some fm
  else
    match splitColon line with
    | none => none
    | some kv =>
      let key := trimL kv.1
      let val := trimL kv.2
      if key = strL "title" then some { fm with title := some val }
      else if key = strL "date" then some { fm with date := some val }
      else if key = strL "author" then some { fm with author := some val }
      else if key = strL "tags" then none
      else if key = strL "description" then some { fm with description := some val }
      else if key = strL "time" then some { fm with time := some val }
      else some { fm with extra := fm.extra ++ [(key, val)] }

/-- Simplified model of `serde_yaml::from_str::<Frontmatter>` over the whole
block (see `yamlLineStep`). -/
def yamlBlock (s : List Char) : Option Frontmatter :=
  (splitLinesL s).foldl
    (fun acc line => acc.bind (fun fm => yamlLineStep fm line))
    (some emptyFrontmatter)

/-- Error taxonomy of the parser stage. -/
inductive MdError where
  | unterminated
  | yamlInvalid
deriving DecidableEq

/-- Embedding of `parse_frontmatter` (`markdown.rs`): if the input starts
with `---`, find the next occurrence of `---` anywhere in the remainder
(this is `content[3..].find("---")` — not necessarily a delimiter line);
no occurrence is the "No closing frontmatter separator" error; otherwise the
slice between the delimiters is YAML-deserialized and the body is the rest
with leading whitespace trimmed. Inputs not starting with `---` parse as
empty metadata with the whole input as body. -/
def parseFrontmatter (content : List Char) :
    Except MdError (Frontmatter × List Char) :=
  if startsWithL (strL "---") content = true then
    match findIdxL (strL "---") (content.drop 3) with
    | none => .error .unterminated
    | some i =>
      match yamlBlock ((content.drop 3).take i) with
      | none => .error .yamlInvalid
      | some fm => .ok (fm, trimStartL ((content.drop 3).drop (i + 3)))
  else
    .ok (emptyFrontmatter, content)

/-- Embedding of `ParsedMarkdown`; the HTML fragment is produced by the
external `pulldown_cmark` renderer, supplied as a function parameter where
needed. -/
structure ParsedMarkdown where
  frontmatter : Frontmatter
  htmlContent : List Char
  rawContent : List Char
deriving DecidableEq

/-- Embedding of `parse_markdown`: frontmatter parsing followed by the
(total, external) markdown-to-HTML conversion `mdToHtml`. -/
def parseMarkdown (mdToHtml : List Char → List Char) (content : List Char) :
    Except MdError ParsedMarkdown :=
  match parseFrontmatter content with
  | .error e => .error e
  | .ok fmmd => .ok ⟨fmmd.1, mdToHtml fmmd.2, fmmd.2⟩

/-- Events of the external `pulldown_cmark` parser, as consumed by
`get_title`: the start of a level-1 heading, a text event, or anything
else. -/
inductive MdEvent where
  | startH1
  | text (s : List Char)
  | other
deriving DecidableEq

/-- The event loop inside `get_title`: on the first `Start(Heading H1)`
event the code executes `return String::new()` (the comment claims the
title "will be filled by the next event", but `return` exits the function);
on a first `Text` event it returns that text; otherwise it continues. -/
def getTitleScan : List MdEvent → Option (List Char)
  | [] => none
  | .startH1 :: _ => some []
  | .text s :: _ => some s
  | .other :: rest => getTitleScan rest

/-- Rust `raw.lines().next().unwrap_or("Untitled")`: the first line, where
an empty string has no lines at all and a `\x0d` is stripped only as part
of a `\x0d\x0a` ending. -/
def firstLineL (s : List Char) : List Char :=
  if s = [] then strL "Untitled"
  else if containsL ['\n'] s = true then
    let chunk := s.takeWhile (fun c => !(c == '\n'))
    if chunk.getLast? = some '\r' then chunk.dropLast else chunk
  else s

/-- Embedding of `ParsedMarkdown::get_title`; `events` abstracts the event
stream `pulldown_cmark::Parser::new(&self.raw_content)`. -/
def getTitle (events : List MdEvent) (pm : ParsedMarkdown) : List Char :=
  match pm.frontmatter.title with
  | some t => t
  | none =>
    match getTitleScan events with
    | some s => s
    | none => firstLineL pm.rawContent

/-- Value of a successfully parsed timestamp (naive date-time). -/
structure DateTimeV where
  year : Nat
  month : Nat
  day : Nat
  hour : Nat
  minute : Nat
  second : Nat
deriving DecidableEq

def digitVal (c : Char) : Option Nat :=
  if '0' ≤ c ∧ c ≤ '9' then some (c.toNat - '0'.toNat) else none

/-- Parse exactly `n` digits, returning the accumulated value and the rest. -/
def parseDigitsAux : Nat → Nat → List Char → Option (Nat × List Char)
  | 0, acc, s => some (acc, s)
  | _ + 1, _, [] => none
  | n + 1, acc, c :: rest =>
    match digitVal c with
    | none => none
    | some d => parseDigitsAux n (acc * 10 + d) rest

def expectChar (c : Char) : List Char → Option (List Char)
  | [] => none
  | x :: rest => if x = c then some rest else none

def skipFraction : List Char → List Char
  | '.' :: rest =>
    if (rest.takeWhile (fun c => (digitVal c).isSome)) = [] then '.' :: rest
    else rest.dropWhile (fun c => (digitVal c).isSome)
  | s => s

/-- Parse the timezone offset of an RFC3339 timestamp. The model is
restricted to the UTC offsets `Z`/`z`/`+00:00`/`-00:00` (for which
`naive_utc` is the identity on the clock fields); other offsets do not
occur in the verified properties and are modelled as failure. -/
def parseZeroOffset : List Char → Option (List Char)
  | 'Z' :: rest => some rest
  | 'z' :: rest => some rest
  | c :: rest =>
    if c = '+' ∨ c = '-' then
      match parseDigitsAux 2 0 rest with
      | none => none
      | some hrest =>
        match expectChar ':' hrest.2 with
        | none => none
        | some rest2 =>
          match parseDigitsAux 2 0 rest2 with
          | none => none
          | some mrest =>
            if hrest.1 = 0 ∧ mrest.1 = 0 then some mrest.2 else none
    else none
  | [] => none

/-- Model of `chrono::DateTime::parse_from_rfc3339(..).map(naive_utc)`:
`YYYY-MM-DDTHH:MM:SS[.frac](offset)`, fields range-checked. -/
def parseRFC3339 (s : List Char) : Option DateTimeV := do
  let (y, s) ← parseDigitsAux 4 0 s
  let s ← expectChar '-' s
  let (mo, s) ← parseDigitsAux 2 0 s
  let s ← expectChar '-' s
  let (d, s) ← parseDigitsAux 2 0 s
  let s ← match s with
    | 'T' :: rest => some rest
    | 't' :: rest => some rest
    | ' ' :: rest => some rest
    | _ => none
  let (h, s) ← parseDigitsAux 2 0 s
  let s ← expectChar ':' s
  let (mi, s) ← parseDigitsAux 2 0 s
  let s ← expectChar ':' s
  let (se, s) ← parseDigitsAux 2 0 s
  let s := skipFraction s
  let s ← parseZeroOffset s
  if s = [] ∧ 1 ≤ mo ∧ mo ≤ 12 ∧ 1 ≤ d ∧ d ≤ 31 ∧ h ≤ 23 ∧ mi ≤ 59 ∧ se ≤ 60 then
    some ⟨y, mo, d, h, mi, se⟩
  else
    none

/-- Model of `chrono::NaiveDateTime::parse_from_str(s, "%Y-%m-%d")`: the
format string carries no time-of-day items, and chrono refuses to build a
`NaiveDateTime` from a date alone (`ParseError(NotEnough)`), so this parse
fails on every input. (`NaiveDate::parse_from_str` would succeed; the code
uses `NaiveDateTime`.) -/
def parseYmdAsDateTime (_ : List Char) : Option DateTimeV := none

/-- Embedding of `ParsedMarkdown::get_date`: prefer `time` over `date`,
parse as RFC3339, then fall back to the `%Y-%m-%d` parse. -/
def getDate (fm : Frontmatter) : Option DateTimeV :=
  match fm.time.or fm.date with
  | none => none
  | some s => (parseRFC3339 s).or (parseYmdAsDateTime s)

/-- C7: divergence of `get_title` from the specified resolution order.
For a document without a frontmatter title whose body is `# Hello World`,
the first parser event is the start of a level-1 heading, upon which the
loop executes `return String::new()`; the function returns the empty string
instead of the heading text `Hello World`. -/
theorem C7_get_title_h1_returns_empty :
    getTitle [MdEvent.startH1, MdEvent.text (strL "Hello World"), MdEvent.other]
      ⟨emptyFrontmatter, strL "<h1>Hello World</h1>", strL "# Hello World"⟩
      = strL "" ∧
    strL "" ≠ strL "Hello World" :=
  ⟨rfl, by decide⟩

/-- C8: divergence of `get_date` from the specified fallback parse. A bare
`2024-01-01` in the `date` field yields no date (the `%Y-%m-%d` format has
no time-of-day items, so `NaiveDateTime::parse_from_str` always fails),
while a full RFC3339 value parses fine. -/
theorem C8_get_date_bare_date_none :
    getDate { emptyFrontmatter with date := some (strL "2024-01-01") } = none ∧
    getDate { emptyFrontmatter with date := some (strL "2024-01-01T00:00:00Z") }
      = some ⟨2024, 1, 1, 0, 0, 0⟩ :=
  ⟨rfl, rfl⟩

/-- C9 counterexample: a frontmatter block that is properly closed by a
`---` delimiter line can still fail to parse — the enclosed block `[` is
not valid YAML — so "fails exactly when opened but never closed" is false. -/
theorem C9_closed_block_still_fails :
    containsL (strL "\x0a---\x0a") (strL "---\x0a[\x0a---\x0a") = true ∧
    parseMarkdown (fun h => h) (strL "---\x0a[\x0a---\x0a")
      = .error MdError.yamlInvalid :=
  ⟨by decide, rfl⟩

/-- C9 amended: an input that does not start with `---` parses successfully
with empty metadata and the whole input as body; an opened block with no
later occurrence of `---` (the code searches anywhere, not only delimiter
lines) is the unterminated-frontmatter error; and every parse error arises
from an input that starts with the delimiter. -/
theorem C9_parse_frontmatter_amended (content : List Char) :
    (startsWithL (strL "---") content = false →
      parseFrontmatter content = .ok (emptyFrontmatter, content)) ∧
    (startsWithL (strL "---") content = true →
      findIdxL (strL "---") (content.drop 3) = none →
      parseFrontmatter content = .error MdError.unterminated) ∧
    (∀ e, parseFrontmatter content = .error e →
      startsWithL (strL "---") content = true) := by
  refine ⟨?_, ?_, ?_⟩
  · intro h
    simp [parseFrontmatter, h]
  · intro h hf
    simp [parseFrontmatter, h, hf]
  · intro e he
    cases hsw : startsWithL (strL "---") content with
    | true => rfl
    | false => simp [parseFrontmatter, hsw] at he

/-- Witness for the amended C9 at concrete inputs for both the
no-frontmatter branch and the unterminated branch. -/
theorem C9_parse_frontmatter_amended_witness :
    parseFrontmatter (strL "# Title\x0abody")
      = .ok (emptyFrontmatter, strL "# Title\x0abody") ∧
    parseFrontmatter (strL "---\x0atitle: x")
      = .error MdError.unterminated :=
  ⟨(C9_parse_frontmatter_amended (strL "# Title\x0abody")).1 (by decide),
    (C9_parse_frontmatter_amended (strL "---\x0atitle: x")).2.1
      (by decide) (by decide)⟩

/-! ## Scanner (`scanner.rs`): attachment filename generation -/

/-- Decimal rendering of a natural number (Rust `format!("{}", n)`), with
structural fuel so that it evaluates in the kernel. -/
def natReprAux : Nat → Nat → List Char
  | 0, _ => []
  | fuel + 1, n =>
    if n = 0 then [] else natReprAux fuel (n / 10) ++ [Nat.digitChar (n % 10)]

/-- Decimal rendering of a natural number, `['0']` for zero. -/
def natReprL (n : Nat) : List Char :=
  if n = 0 then ['0'] else natReprAux n n

theorem natReprAux_eq (fuel : Nat) : ∀ n, n ≤ fuel →
    natReprAux fuel n = ((Nat.digits 10 n).reverse.map Nat.digitChar) := by
  induction fuel with
  | zero =>
    intro n hn
    have h0 : n = 0 := Nat.le_zero.1 hn
    subst h0
    simp [natReprAux]
  | succ fuel ih =>
    intro n hn
    by_cases h0 : n = 0
    · subst h0; simp [natReprAux]
    · have hdiv : n / 10 < n := Nat.div_lt_self (Nat.pos_of_ne_zero h0) (by norm_num)
      rw [show natReprAux (fuel + 1) n
          = natReprAux fuel (n / 10) ++ [Nat.digitChar (n % 10)] from by
            simp [natReprAux, h0]]
      rw [Nat.digits_def' (by norm_num : (1:ℕ) < 10) (Nat.pos_of_ne_zero h0)]
      rw [ih (n / 10) (by omega)]
      simp

theorem digitChar_inj_lt :
    ∀ a, a < 10 → ∀ b, b < 10 → Nat.digitChar a = Nat.digitChar b → a = b := by
  decide

theorem digitChar_ne_dot : ∀ a, a < 10 → Nat.digitChar a ≠ '.' := by decide

theorem natReprL_no_dot (n : Nat) : ∀ c ∈ natReprL n, c ≠ '.' := by
  intro c hc
  unfold natReprL at hc
  by_cases h0 : n = 0
  · simp [h0] at hc
    subst hc
    decide
  · rw [if_neg h0, natReprAux_eq n n (le_refl n)] at hc
    rcases List.mem_map.1 hc with ⟨d, hd, rfl⟩
    exact digitChar_ne_dot d
      (Nat.digits_lt_base (by norm_num) (List.mem_reverse.1 hd))

theorem map_digitChar_inj : ∀ (l1 l2 : List Nat),
    (∀ d ∈ l1, d < 10) → (∀ d ∈ l2, d < 10) →
    l1.map Nat.digitChar = l2.map Nat.digitChar → l1 = l2 := by
  intro l1
  induction l1 with
  | nil => intro l2 _ _ h; cases l2 with
    | nil => rfl
    | cons b l2 => simp at h
  | cons a l1 ih =>
    intro l2 h1 h2 h
    cases l2 with
    | nil => simp at h
    | cons b l2 =>
      simp only [List.map_cons, List.cons.injEq] at h
      have ha := digitChar_inj_lt a (h1 a (by simp)) b (h2 b (by simp)) h.1
      have := ih l2 (fun d hd => h1 d (by simp [hd]))
        (fun d hd => h2 d (by simp [hd])) h.2
      simp [ha, this]

theorem natReprL_inj {m n : Nat} (h : natReprL m = natReprL n) : m = n := by
  by_cases hm : m = 0 <;> by_cases hn : n = 0
  · omega
  · exfalso
    rw [natReprL, if_pos hm, natReprL, if_neg hn,
      natReprAux_eq n n (le_refl n)] at h
    have h0 : ([0] : List Nat).map Nat.digitChar = ['0'] := rfl
    have := map_digitChar_inj [0] ((Nat.digits 10 n).reverse)
      (by intro d hd; simp at hd; omega)
      (fun d hd => Nat.digits_lt_base (by norm_num) (List.mem_reverse.1 hd))
      (by rw [h0, h])
    have hd : Nat.digits 10 n = [0] := by
      have := congrArg List.reverse this
      simpa using this.symm
    have := Nat.ofDigits_digits 10 n
    rw [hd] at this
    simp [Nat.ofDigits] at this
    omega
  · exfalso
    rw [natReprL, if_neg hm, natReprL, if_pos hn,
      natReprAux_eq m m (le_refl m)] at h
    have h0 : ([0] : List Nat).map Nat.digitChar = ['0'] := rfl
    have := map_digitChar_inj [0] ((Nat.digits 10 m).reverse)
      (by intro d hd; simp at hd; omega)
      (fun d hd => Nat.digits_lt_base (by norm_num) (List.mem_reverse.1 hd))
      (by rw [h0, ← h])
    have hd : Nat.digits 10 m = [0] := by
      have := congrArg List.reverse this
      simpa using this.symm
    have := Nat.ofDigits_digits 10 m
    rw [hd] at this
    simp [Nat.ofDigits] at this
    omega
  · rw [natReprL, if_neg hm, natReprL, if_neg hn,
      natReprAux_eq m m (le_refl m), natReprAux_eq n n (le_refl n)] at h
    have := map_digitChar_inj ((Nat.digits 10 m).reverse) ((Nat.digits 10 n).reverse)
      (fun d hd => Nat.digits_lt_base (by norm_num) (List.mem_reverse.1 hd))
      (fun d hd => Nat.digits_lt_base (by norm_num) (List.mem_reverse.1 hd)) h
    have hdig : Nat.digits 10 m = Nat.digits 10 n := by
      have := congrArg List.reverse this
      simpa using this
    have h1 := Nat.ofDigits_digits 10 m
    have h2 := Nat.ofDigits_digits 10 n
    rw [hdig] at h1
    omega

/-- The generated attachment filename `"{item_dir}_{counter}.{ext}"`. -/
def attachmentName (itemName : List Char) (counter : Nat) (ext : List Char) :
    List Char :=
  itemName ++ '_' :: (natReprL counter ++ '.' :: ext)

theorem dotfree_split : ∀ (r1 r2 e1 e2 : List Char),
    (∀ c ∈ r1, c ≠ '.') → (∀ c ∈ r2, c ≠ '.') →
    r1 ++ '.' :: e1 = r2 ++ '.' :: e2 → r1 = r2 ∧ e1 = e2 := by
  intro r1
  induction r1 with
  | nil =>
    intro r2 e1 e2 _ hr2 h
    cases r2 with
    | nil => simpa using h
    | cons c r2 =>
      exfalso
      simp only [List.nil_append, List.cons_append, List.cons.injEq] at h
      exact hr2 c (by simp) h.1.symm
  | cons c r1 ih =>
    intro r2 e1 e2 hr1 hr2 h
    cases r2 with
    | nil =>
      exfalso
      simp only [List.nil_append, List.cons_append, List.cons.injEq] at h
      exact hr1 c (by simp) h.1
    | cons d r2 =>
      simp only [List.cons_append, List.cons.injEq] at h
      have := ih r2 e1 e2 (fun x hx => hr1 x (by simp [hx]))
        (fun x hx => hr2 x (by simp [hx])) h.2
      exact ⟨by simp [h.1, this.1], this.2⟩

theorem attachmentName_inj {item : List Char} {c1 c2 : Nat} {e1 e2 : List Char}
    (h : attachmentName item c1 e1 = attachmentName item c2 e2) :
    c1 = c2 ∧ e1 = e2 := by
  unfold attachmentName at h
  have h1 := List.append_cancel_left h
  simp only [List.cons.injEq, true_and] at h1
  have := dotfree_split (natReprL c1) (natReprL c2) e1 e2
    (natReprL_no_dot c1) (natReprL_no_dot c2) h1
  exact ⟨natReprL_inj this.1, this.2⟩

/-- The collision-avoiding counter search: `while used_names.contains(&new_name)
{ counter += 1; ... }`, with fuel making the recursion structural. -/
def findFreeCounter (itemName ext : List Char) (used : List (List Char)) :
    Nat → Nat → Nat
  | 0, c => c
  | fuel + 1, c =>
    if attachmentName itemName c ext ∈ used then
      findFreeCounter itemName ext used fuel (c + 1)
    else c

theorem findFreeCounter_ge (item ext : List Char) (used : List (List Char)) :
    ∀ fuel c, c ≤ findFreeCounter item ext used fuel c := by
  intro fuel
  induction fuel with
  | zero => intro c; simp [findFreeCounter]
  | succ fuel ih =>
    intro c
    simp only [findFreeCounter]
    split
    · exact le_trans (Nat.le_succ c) (ih (c + 1))
    · exact le_refl c

theorem findFreeCounter_not_mem (item ext : List Char) (used : List (List Char)) :
    ∀ fuel c, (∃ j, j < fuel ∧ attachmentName item (c + j) ext ∉ used) →
      attachmentName item (findFreeCounter item ext used fuel c) ext ∉ used := by
  intro fuel
  induction fuel with
  | zero => rintro c ⟨j, hj, _⟩; omega
  | succ fuel ih =>
    rintro c ⟨j, hj, hfree⟩
    simp only [findFreeCounter]
    split
    · rename_i hmem
      refine ih (c + 1) ⟨j - 1, ?_, ?_⟩
      · rcases Nat.eq_zero_or_pos j with rfl | hjpos
        · simp at hfree
          exact absurd hmem hfree
        · omega
      · rcases Nat.eq_zero_or_pos j with rfl | hjpos
        · simp at hfree
          exact absurd hmem hfree
        · have : c + 1 + (j - 1) = c + j := by omega
          rw [this]
          exact hfree
    · rename_i hmem
      exact hmem

/-- Pigeonhole: among `used.length + 1` consecutive counters there is one
whose generated name is unused. -/
theorem exists_free_counter (item ext : List Char) (used : List (List Char))
    (c : Nat) :
    ∃ j, j < used.length + 1 ∧ attachmentName item (c + j) ext ∉ used := by
  by_contra hcon
  push_neg at hcon
  have hall : ∀ j, j < used.length + 1 → attachmentName item (c + j) ext ∈ used := by
    intro j hj
    exact hcon j hj
  have hinj : Function.Injective (fun j : Nat => attachmentName item (c + j) ext) := by
    intro a b hab
    have := (attachmentName_inj hab).1
    omega
  have hnd : ((List.range (used.length + 1)).map
      (fun j => attachmentName item (c + j) ext)).Nodup :=
    (List.nodup_range _).map hinj
  have hsub : ∀ x ∈ (List.range (used.length + 1)).map
      (fun j => attachmentName item (c + j) ext), x ∈ used := by
    intro x hx
    rcases List.mem_map.1 hx with ⟨j, hj, rfl⟩
    exact hall j (List.mem_range.1 hj)
  have h1 := List.toFinset_card_of_nodup hnd
  have h2 : ((List.range (used.length + 1)).map
      (fun j => attachmentName item (c + j) ext)).toFinset ⊆ used.toFinset := by
    intro x hx
    exact List.mem_toFinset.2 (hsub x (List.mem_toFinset.1 hx))
  have h3 := Finset.card_le_card h2
  have h4 := List.toFinset_card_le used
  rw [h1] at h3
  simp only [List.length_map, List.length_range] at h3
  omega

theorem findFree_result_not_mem (item ext : List Char) (used : List (List Char))
    (c : Nat) :
    attachmentName item (findFreeCounter item ext used (used.length + 1) c) ext
      ∉ used :=
  findFreeCounter_not_mem item ext used (used.length + 1) c
    (exists_free_counter item ext used c)

/-- One directory entry as seen by `std::fs::read_dir`: its file name,
whether it is a directory, its text content (for `read_to_string`) and its
raw bytes (for `fs::read`). In this pure filesystem model reads of existing
entries do not fail. -/
structure FsFile where
  name : List Char
  isDir : Bool
  text : List Char
  bytes : List Nat
deriving DecidableEq

/-- Split at the first `.` of a reversed file name: returns the reversed
extension (before the dot) and the reversed stem (after it). -/
def splitDotRev : List Char → Option (List Char × List Char)
  | [] => none
  | c :: rest =>
    if c = '.' then some ([], rest)
    else
      match splitDotRev rest with
      | none => none
      | some pr => some (c :: pr.1, pr.2)

/-- Model of Rust `Path::file_stem` / `Path::extension` on a bare file
name: split at the final `.`; a name whose only `.` is leading has no
extension and is its own stem. -/
def splitExtL (name : List Char) : List Char × Option (List Char) :=
  match splitDotRev name.reverse with
  | some pr => if pr.2 = [] then (name, none) else (pr.2.reverse, some pr.1.reverse)
  | none => (name, none)

theorem splitDotRev_eq : ∀ (r e st : List Char),
    splitDotRev r = some (e, st) → r = e ++ '.' :: st := by
  intro r
  induction r with
  | nil => intro e st h; simp [splitDotRev] at h
  | cons c rest ih =>
    intro e st h
    by_cases hc : c = '.'
    · rw [splitDotRev, if_pos hc] at h
      simp only [Option.some.injEq, Prod.mk.injEq] at h
      rw [← h.1, ← h.2, hc]
      simp
    · rw [splitDotRev, if_neg hc] at h
      cases hrec : splitDotRev rest with
      | none => rw [hrec] at h; simp at h
      | some pr =>
        rw [hrec] at h
        simp only [Option.some.injEq, Prod.mk.injEq] at h
        have := ih pr.1 pr.2 (by rw [hrec])
        rw [← h.1, ← h.2]
        simp [this]

/-- A file name with extension `e` is its stem followed by `.e`. -/
theorem splitExtL_reconstruct {name e : List Char}
    (h : (splitExtL name).2 = some e) :
    name = (splitExtL name).1 ++ '.' :: e := by
  unfold splitExtL at h ⊢
  cases hrec : splitDotRev name.reverse with
  | none => rw [hrec] at h; simp at h
  | some pr =>
    rw [hrec] at h
    dsimp only at h ⊢
    by_cases h2 : pr.2 = []
    · rw [if_pos h2] at h; simp at h
    · rw [if_neg h2] at h ⊢
      simp only [Option.some.injEq] at h
      have hr := splitDotRev_eq name.reverse pr.1 pr.2 hrec
      have hname := congrArg List.reverse hr
      simp only [List.reverse_reverse, List.reverse_append,
        List.reverse_cons] at hname
      rw [hname, ← h]
      simp

/-- Model of `get_mime_type` (`scanner.rs`), keyed on the lowercased
extension (ASCII lowercasing; the extensions recognised are ASCII). -/
def asciiLowerChar (c : Char) : Char :=
  if 'A' ≤ c ∧ c ≤ 'Z' then Char.ofNat (c.toNat + 32) else c

def getMimeType (extension : List Char) : List Char :=
  let e := extension.map asciiLowerChar
  if e = strL "jpg" ∨ e = strL "jpeg" then strL "image/jpeg"
  else if e = strL "png" then strL "image/png"
  else if e = strL "gif" then strL "image/gif"
  else if e = strL "svg" then strL "image/svg+xml"
  else if e = strL "webp" then strL "image/webp"
  else if e = strL "pdf" then strL "application/pdf"
  else if e = strL "zip" then strL "application/zip"
  else if e = strL "mp4" then strL "video/mp4"
  else if e = strL "mp3" then strL "audio/mpeg"
  else if e = strL "txt" then strL "text/plain"
  else if e = strL "css" then strL "text/css"
  else if e = strL "js" then strL "application/javascript"
  else if e = strL "html" then strL "text/html"
  else strL "application/octet-stream"

/-- Embedding of the `Attachment` struct. -/
structure Attachment where
  originalName : List Char
  newName : List Char
  fileType : List Char
  path : List Char
  fileData : List Nat
  fileSize : Nat
  mimeType : List Char
deriving DecidableEq

/-- An attachment-directory entry that `scan_attachments` processes (not a
directory, not hidden). -/
def validAttachmentEntry (f : FsFile) : Bool :=
  !f.isDir && !(startsWithL ['.'] f.name)

/-- The loop body of `Scanner::scan_attachments`: walk the directory
entries carrying the counter and the set of used names; for each valid
entry derive the extension, bump the counter past collisions, record the
generated name. -/
def scanAttachmentsGo (itemDirName : List Char) :
    List FsFile → Nat → List (List Char) → List Attachment
  | [], _, _ => []
  | f :: rest, counter, used =>
    if validAttachmentEntry f = true then
      let ext := ((splitExtL f.name).2).getD []
      let c1 := findFreeCounter itemDirName ext used (used.length + 1) (counter + 1)
      let newName := attachmentName itemDirName c1 ext
      { originalName := f.name, newName := newName, fileType := ext,
        path := strL "attachment/" ++ newName, fileData := f.bytes,
        fileSize := f.bytes.length, mimeType := getMimeType ext } ::
        scanAttachmentsGo itemDirName rest c1 (used ++ [newName])
    else
      scanAttachmentsGo itemDirName rest counter used

/-- Embedding of `Scanner::scan_attachments` over the entries of an
existing attachment directory. -/
def scanAttachments (itemDirName : List Char) (entries : List FsFile) :
    List Attachment :=
  scanAttachmentsGo itemDirName entries 0 []

theorem scanAttachmentsGo_length (itemDirName : List Char) :
    ∀ (entries : List FsFile) (counter : Nat) (used : List (List Char)),
      (scanAttachmentsGo itemDirName entries counter used).length
        = (entries.filter validAttachmentEntry).length := by
  intro entries
  induction entries with
  | nil => intro counter used; simp [scanAttachmentsGo]
  | cons f rest ih =>
    intro counter used
    by_cases hv : validAttachmentEntry f = true
    · simp [scanAttachmentsGo, hv, ih]
    · simp only [scanAttachmentsGo]
      rw [if_neg hv]
      have hv' : validAttachmentEntry f = false := by
        cases h : validAttachmentEntry f with
        | false => rfl
        | true => exact absurd h hv
      simp [List.filter_cons, hv', ih]

theorem scanAttachmentsGo_invariant (itemDirName : List Char) :
    ∀ (entries : List FsFile) (counter : Nat) (used : List (List Char)),
      (∀ a ∈ scanAttachmentsGo itemDirName entries counter used,
        a.newName ∉ used ∧
        ∃ k, counter + 1 ≤ k ∧ a.newName = attachmentName itemDirName k a.fileType) ∧
      ((scanAttachmentsGo itemDirName entries counter used).map (·.newName)).Nodup := by
  intro entries
  induction entries with
  | nil => intro counter used; simp [scanAttachmentsGo]
  | cons f rest ih =>
    intro counter used
    by_cases hv : validAttachmentEntry f = true
    · have hfree := findFree_result_not_mem itemDirName
        (((splitExtL f.name).2).getD []) used (counter + 1)
      have hge := findFreeCounter_ge itemDirName
        (((splitExtL f.name).2).getD []) used (used.length + 1) (counter + 1)
      set ext := ((splitExtL f.name).2).getD [] with hext
      set c1 := findFreeCounter itemDirName ext used (used.length + 1) (counter + 1)
        with hc1
      set newName := attachmentName itemDirName c1 ext with hnn
      have hrec := ih c1 (used ++ [newName])
      constructor
      · intro a ha
        rw [show scanAttachmentsGo itemDirName (f :: rest) counter used
            = { originalName := f.name, newName := newName, fileType := ext,
                path := strL "attachment/" ++ newName, fileData := f.bytes,
                fileSize := f.bytes.length, mimeType := getMimeType ext } ::
              scanAttachmentsGo itemDirName rest c1 (used ++ [newName]) from by
              simp [scanAttachmentsGo, hv]] at ha
        rcases List.mem_cons.1 ha with rfl | hmem
        · exact ⟨hfree, c1, by omega, rfl⟩
        · have h1 := (hrec.1 a hmem).1
          have h2 := (hrec.1 a hmem).2
          constructor
          · intro hcon
            exact h1 (by simp [hcon])
          · rcases h2 with ⟨k, hk, hkeq⟩
            exact ⟨k, by omega, hkeq⟩
      · rw [show scanAttachmentsGo itemDirName (f :: rest) counter used
            = { originalName := f.name, newName := newName, fileType := ext,
                path := strL "attachment/" ++ newName, fileData := f.bytes,
                fileSize := f.bytes.length, mimeType := getMimeType ext } ::
              scanAttachmentsGo itemDirName rest c1 (used ++ [newName]) from by
              simp [scanAttachmentsGo, hv]]
        simp only [List.map_cons, List.nodup_cons]
        constructor
        · intro hcon
          rcases List.mem_map.1 hcon with ⟨a, ha, heq⟩
          exact (hrec.1 a ha).1 (by simp [heq])
        · exact hrec.2
    · rw [show scanAttachmentsGo itemDirName (f :: rest) counter used
          = scanAttachmentsGo itemDirName rest counter used from by
            simp [scanAttachmentsGo, hv]]
      exact ih counter used

theorem scanAttachmentsGo_head (itemDirName : List Char) :
    ∀ (entries : List FsFile) (a : Attachment),
      (scanAttachmentsGo itemDirName entries 0 []).head? = some a →
      a.newName = attachmentName itemDirName 1 a.fileType := by
  intro entries
  induction entries with
  | nil => intro a h; simp [scanAttachmentsGo] at h
  | cons f rest ih =>
    intro a h
    by_cases hv : validAttachmentEntry f = true
    · rw [show scanAttachmentsGo itemDirName (f :: rest) 0 []
          = { originalName := f.name,
              newName := attachmentName itemDirName
                (findFreeCounter itemDirName (((splitExtL f.name).2).getD []) [] 1 1)
                (((splitExtL f.name).2).getD []),
              fileType := ((splitExtL f.name).2).getD [],
              path := strL "attachment/" ++ attachmentName itemDirName
                (findFreeCounter itemDirName (((splitExtL f.name).2).getD []) [] 1 1)
                (((splitExtL f.name).2).getD []),
              fileData := f.bytes, fileSize := f.bytes.length,
              mimeType := getMimeType (((splitExtL f.name).2).getD []) } ::
            scanAttachmentsGo itemDirName rest
              (findFreeCounter itemDirName (((splitExtL f.name).2).getD []) [] 1 1)
              ([] ++ [attachmentName itemDirName
                (findFreeCounter itemDirName (((splitExtL f.name).2).getD []) [] 1 1)
                (((splitExtL f.name).2).getD [])]) from by
            simp [scanAttachmentsGo, hv]] at h
      simp only [List.head?_cons, Option.some.injEq] at h
      have hff : findFreeCounter itemDirName (((splitExtL f.name).2).getD []) [] 1 1
          = 1 := by
        simp [findFreeCounter]
      rw [← h, hff]
    · rw [show scanAttachmentsGo itemDirName (f :: rest) 0 []
          = scanAttachmentsGo itemDirName rest 0 [] from by
            simp [scanAttachmentsGo, hv]] at h
      exact ih a h

/-- C2: for an item directory, `scan_attachments` generates exactly one
filename per valid (non-hidden, non-directory) attachment entry; the
generated names are pairwise distinct, each has the form
`"{item_dir}_{k}.{ext}"` with `k ≥ 1` (the counter starts at 1 and is
bumped past collisions until the name is unused), and the first generated
name uses `k = 1`. -/
theorem C2_scan_attachments_unique (itemDirName : List Char)
    (entries : List FsFile) :
    (scanAttachments itemDirName entries).length
      = (entries.filter validAttachmentEntry).length ∧
    ((scanAttachments itemDirName entries).map (·.newName)).Nodup ∧
    (∀ a ∈ scanAttachments itemDirName entries,
      ∃ k, 1 ≤ k ∧ a.newName = attachmentName itemDirName k a.fileType) ∧
    (∀ a, (scanAttachments itemDirName entries).head? = some a →
      a.newName = attachmentName itemDirName 1 a.fileType) := by
  refine ⟨scanAttachmentsGo_length itemDirName entries 0 [], ?_, ?_, ?_⟩
  · exact (scanAttachmentsGo_invariant itemDirName entries 0 []).2
  · intro a ha
    rcases ((scanAttachmentsGo_invariant itemDirName entries 0 []).1 a ha).2
      with ⟨k, hk, hkeq⟩
    exact ⟨k, by omega, hkeq⟩
  · intro a ha
    exact scanAttachmentsGo_head itemDirName entries a ha

/-- Witness for C2 on a directory with three attachment files (two sharing
an extension) plus a hidden file and a subdirectory, both skipped. -/
theorem C2_scan_attachments_unique_witness :
    (scanAttachments (strL "apple")
      [⟨strL "pic.jpg", false, [], [137, 80]⟩,
       ⟨strL ".hidden", false, [], []⟩,
       ⟨strL "sub", true, [], []⟩,
       ⟨strL "photo.jpg", false, [], [1]⟩,
       ⟨strL "doc.pdf", false, [], [2, 3]⟩]).length = 3 ∧
    (∃ k, 1 ≤ k ∧
      (⟨strL "pic.jpg", strL "apple_1.jpg", strL "jpg",
        strL "attachment/apple_1.jpg", [137, 80], 2,
        strL "image/jpeg"⟩ : Attachment).newName
        = attachmentName (strL "apple") k
          (⟨strL "pic.jpg", strL "apple_1.jpg", strL "jpg",
            strL "attachment/apple_1.jpg", [137, 80], 2,
            strL "image/jpeg"⟩ : Attachment).fileType) :=
  ⟨(C2_scan_attachments_unique (strL "apple") _).1.trans (by decide),
    (C2_scan_attachments_unique (strL "apple")
      [⟨strL "pic.jpg", false, [], [137, 80]⟩,
       ⟨strL ".hidden", false, [], []⟩,
       ⟨strL "sub", true, [], []⟩,
       ⟨strL "photo.jpg", false, [], [1]⟩,
       ⟨strL "doc.pdf", false, [], [2, 3]⟩]).2.2.1 _ (by decide)⟩

/-! ## Scanner (`scanner.rs`): directory tree walk -/

/-- An item directory as seen by the scanner: its entries (markdown
candidates) and its optional `attachment` subdirectory
(`attachmentPresent` models `exists() && is_dir()`). -/
structure ItemDirFs where
  name : List Char
  isDir : Bool
  entries : List FsFile
  attachmentPresent : Bool
  attachmentEntries : List FsFile
deriving DecidableEq

/-- A category directory: optional `index.md` (presence and content) and
its subdirectory entries. -/
structure CategoryFs where
  name : List Char
  isDir : Bool
  indexPresent : Bool
  indexText : List Char
  entries : List ItemDirFs
deriving DecidableEq

/-- The content root: whether the directory exists, and its entries. -/
structure ContentFs where
  present : Bool
  entries : List CategoryFs
deriving DecidableEq

/-- Embedding of the `ContentItem` struct. -/
structure ContentItem where
  category : List Char
  itemName : List Char
  dirName : List Char
  url : List Char
  filePath : List Char
  title : List Char
  date : Option (List Char)
  author : Option (List Char)
  description : Option (List Char)
  htmlContent : List Char
  attachments : List Attachment
  tags : List (List Char)
deriving DecidableEq

/-- Embedding of the `Category` struct. -/
structure Category where
  name : List Char
  url : List Char
  indexPath : List Char
  items : List ContentItem
  description : Option (List Char)
deriving DecidableEq

/-- Embedding of the `SiteContent` struct. -/
structure SiteContent where
  categories : List Category
deriving DecidableEq

/-- Scanner errors: filesystem read failures and propagated parse errors
(the code boxes both into `Box<dyn Error>`). -/
inductive ScanErr where
  | io
  | md (e : MdError)
deriving DecidableEq

/-- Lexicographic order on strings (byte order of Rust `str::cmp`, which
on UTF-8 agrees with code-point order): `lexLe a b` is `a ≤ b`. -/
def lexLe : List Char → List Char → Bool
  | [], _ => true
  | _ :: _, [] => false
  | a :: as, b :: bs => if a < b then true else if b < a then false else lexLe as bs

def pad2L (n : Nat) : List Char := if n < 10 then '0' :: natReprL n else natReprL n

def pad4L (n : Nat) : List Char :=
  if n < 10 then '0' :: '0' :: '0' :: natReprL n
  else if n < 100 then '0' :: '0' :: natReprL n
  else if n < 1000 then '0' :: natReprL n
  else natReprL n

/-- Chrono's `%Y-%m-%d` formatting of the parsed date. -/
def formatYmd (d : DateTimeV) : List Char :=
  pad4L d.year ++ '-' :: (pad2L d.month ++ '-' :: pad2L d.day)

/-- The attachment scan of an item directory, including the
existence/is-dir check of the `attachment` subdirectory. -/
def scanAttachmentsOfDir (d : ItemDirFs) : List Attachment :=
  if d.attachmentPresent = true then scanAttachments d.name d.attachmentEntries
  else []

/-- Embedding of `Scanner::scan_item`: read the markdown source
(`read_to_string` fails on a directory), parse it, scan the attachments,
and assemble the `ContentItem` with url `"{category}-{item}"`. The
parameters `mdToHtml` and `mdEvents` abstract the external
`pulldown_cmark` renderer and event stream. -/
def scanItem (mdToHtml : List Char → List Char)
    (mdEvents : List Char → List MdEvent) (categoryName : List Char)
    (d : ItemDirFs) (itemName : List Char) (mdFile : FsFile) :
    Except ScanErr (Option ContentItem) :=
  if mdFile.isDir = true then .error .io
  else
    match parseMarkdown mdToHtml mdFile.text with
    | .error e => .error (.md e)
    | .ok parsed =>
      .ok (some {
        category := categoryName,
        itemName := itemName,
        dirName := d.name,
        url := categoryName ++ '-' :: itemName,
        filePath := categoryName ++ '/' :: (d.name ++ '/' :: mdFile.name),
        title := getTitle (mdEvents parsed.rawContent) parsed,
        date := (getDate parsed.frontmatter).map formatYmd,
        author := parsed.frontmatter.author,
        description := parsed.frontmatter.description,
        htmlContent := parsed.htmlContent,
        attachments := scanAttachmentsOfDir d,
        tags := parsed.frontmatter.tags.getD [] })

/-- The inner loop of `scan_category` over one item directory: every entry
with extension `md` is an item source, named after the file stem. -/
def scanMdFiles (mdToHtml : List Char → List Char)
    (mdEvents : List Char → List MdEvent) (categoryName : List Char)
    (d : ItemDirFs) : List FsFile → Except ScanErr (List ContentItem)
  | [] => .ok []
  | f :: rest =>
    if (splitExtL f.name).2 = some (strL "md") then
      match scanItem mdToHtml mdEvents categoryName d (splitExtL f.name).1 f with
      | .error e => .error e
      | .ok none => scanMdFiles mdToHtml mdEvents categoryName d rest
      | .ok (some item) =>
        match scanMdFiles mdToHtml mdEvents categoryName d rest with
        | .error e => .error e
        | .ok items => .ok (item :: items)
    else scanMdFiles mdToHtml mdEvents categoryName d rest

/-- The outer loop of `scan_category` over the category's entries: skip
plain files, hidden directories and directories named `attachment`. -/
def scanItemDirs (mdToHtml : List Char → List Char)
    (mdEvents : List Char → List MdEvent) (categoryName : List Char) :
    List ItemDirFs → Except ScanErr (List ContentItem)
  | [] => .ok []
  | d :: rest =>
    if d.isDir = false then scanItemDirs mdToHtml mdEvents categoryName rest
    else if startsWithL ['.'] d.name = true ∨ d.name = strL "attachment" then
      scanItemDirs mdToHtml mdEvents categoryName rest
    else
      match scanMdFiles mdToHtml mdEvents categoryName d d.entries with
      | .error e => .error e
      | .ok items1 =>
        match scanItemDirs mdToHtml mdEvents categoryName rest with
        | .error e => .error e
        | .ok items2 => .ok (items1 ++ items2)

/-- The item comparator of `scan_category`: by date descending, dated
before undated, undated by item name ascending (`le` form of the Rust
`Ordering` comparator). -/
def itemLeB (a b : ContentItem) : Bool :=
  match a.date, b.date with
  | some da, some db => lexLe db da
  | some _, none => true
  | none, some _ => false
  | none, none => lexLe a.itemName b.itemName

/-- The item sort of `scan_category` (Rust `sort_by` is a stable sort; so
is `insertionSort`, and stable sorting is unique, so the results agree). -/
def sortItems (items : List ContentItem) : List ContentItem :=
  List.insertionSort (fun a b => itemLeB a b = true) items

/-- Embedding of `Scanner::scan_category`: optional description from
`index.md` (parse errors there are ignored), the item loops, the
empty-category rule, and the item sort. -/
def scanCategory (mdToHtml : List Char → List Char)
    (mdEvents : List Char → List MdEvent) (cat : CategoryFs) :
    Except ScanErr (Option Category) :=
  let description :=
    if cat.indexPresent = true then
      match parseMarkdown mdToHtml cat.indexText with
      | .ok parsed => parsed.frontmatter.description
      | .error _ => none
    else none
  match scanItemDirs mdToHtml mdEvents cat.name cat.entries with
  | .error e => .error e
  | .ok items =>
    if items.isEmpty = true ∧ cat.indexPresent = false then .ok none
    else .ok (some {
      name := cat.name,
      url := cat.name,
      indexPath := cat.name ++ strL "/index.md",
      items := sortItems items,
      description := description })

/-- The loop of `Scanner::scan` over the root entries: skip plain files
and hidden directories, drop categories scanned to `None`. -/
def scanRoot (mdToHtml : List Char → List Char)
    (mdEvents : List Char → List MdEvent) :
    List CategoryFs → Except ScanErr (List Category)
  | [] => .ok []
  | c :: rest =>
    if c.isDir = false then scanRoot mdToHtml mdEvents rest
    else if startsWithL ['.'] c.name = true then scanRoot mdToHtml mdEvents rest
    else
      match scanCategory mdToHtml mdEvents c with
      | .error e => .error e
      | .ok none => scanRoot mdToHtml mdEvents rest
      | .ok (some cat) =>
        match scanRoot mdToHtml mdEvents rest with
        | .error e => .error e
        | .ok cats => .ok (cat :: cats)

/-- Embedding of `Scanner::scan`: a missing content directory yields the
empty site; otherwise walk the root and sort categories by name. -/
def scan (mdToHtml : List Char → List Char)
    (mdEvents : List Char → List MdEvent) (fs : ContentFs) :
    Except ScanErr SiteContent :=
  if fs.present = false then .ok ⟨[]⟩
  else
    match scanRoot mdToHtml mdEvents fs.entries with
    | .error e => .error e
    | .ok cats =>
      .ok ⟨List.insertionSort (fun a b => lexLe a.name b.name = true) cats⟩

theorem lexLe_total : ∀ a b : List Char, lexLe a b = true ∨ lexLe b a = true := by
  intro a
  induction a with
  | nil => intro b; exact Or.inl rfl
  | cons x as ih =>
    intro b
    cases b with
    | nil => exact Or.inr rfl
    | cons y bs =>
      rcases lt_trichotomy x y with h | h | h
      · left; simp [lexLe, h]
      · subst h
        rcases ih bs with h1 | h1
        · left; simpa [lexLe, lt_irrefl] using h1
        · right; simpa [lexLe, lt_irrefl] using h1
      · right; simp [lexLe, h]

theorem lexLe_trans : ∀ a b c : List Char,
    lexLe a b = true → lexLe b c = true → lexLe a c = true := by
  intro a
  induction a with
  | nil => intro b c _ _; rfl
  | cons x as ih =>
    intro b c h1 h2
    cases b with
    | nil => simp [lexLe] at h1
    | cons y bs =>
      cases c with
      | nil => simp [lexLe] at h2
      | cons z cs =>
        by_cases hxy : x < y
        · by_cases hyz : y < z
          · simp [lexLe, lt_trans hxy hyz]
          · by_cases hzy : z < y
            · simp [lexLe, hyz, hzy] at h2
            · have hyzeq : y = z := le_antisymm (not_lt.1 hzy) (not_lt.1 hyz)
              subst hyzeq
              simp [lexLe, hxy]
        · by_cases hyx : y < x
          · simp [lexLe, hxy, hyx] at h1
          · have hxyeq : x = y := le_antisymm (not_lt.1 hyx) (not_lt.1 hxy)
            subst hxyeq
            rw [lexLe, if_neg (lt_irrefl x), if_neg (lt_irrefl x)] at h1
            by_cases hxz : x < z
            · simp [lexLe, hxz]
            · by_cases hzx : z < x
              · simp [lexLe, hxz, hzx] at h2
              · rw [lexLe, if_neg hxz, if_neg hzx] at h2 ⊢
                exact ih bs cs h1 h2

theorem itemLeB_total : ∀ a b : ContentItem,
    itemLeB a b = true ∨ itemLeB b a = true := by
  intro a b
  unfold itemLeB
  cases a.date <;> cases b.date <;> dsimp only <;>
    first
      | exact Or.inl rfl
      | exact Or.inr rfl
      | exact lexLe_total _ _

theorem itemLeB_trans : ∀ a b c : ContentItem,
    itemLeB a b = true → itemLeB b c = true → itemLeB a c = true := by
  intro a b c
  unfold itemLeB
  cases a.date <;> cases b.date <;> cases c.date <;> dsimp only <;>
    intro h1 h2 <;>
    first
      | exact Bool.noConfusion h1
      | exact Bool.noConfusion h2
      | rfl
      | exact lexLe_trans _ _ _ h1 h2
      | exact lexLe_trans _ _ _ h2 h1

/-- The ordering stated by the spec for items within a category: dated
items by date descending, every dated item before every undated one, and
undated items ascending by item name. -/
def itemOrdered (a b : ContentItem) : Prop :=
  match a.date, b.date with
  | some da, some db => lexLe db da = true
  | some _, none => True
  | none, some _ => False
  | none, none => lexLe a.itemName b.itemName = true

theorem itemLeB_imp_ordered {a b : ContentItem}
    (h : itemLeB a b = true) : itemOrdered a b := by
  revert h
  unfold itemLeB itemOrdered
  cases a.date <;> cases b.date <;> dsimp only <;> intro h <;>
    first
      | trivial
      | exact Bool.noConfusion h
      | exact h

theorem sortItems_sorted (items : List ContentItem) :
    List.Pairwise (fun a b => itemLeB a b = true) (sortItems items) :=
  @List.sorted_insertionSort ContentItem (fun a b => itemLeB a b = true)
    (fun _ _ => inferInstance) ⟨itemLeB_total⟩ ⟨itemLeB_trans⟩ items

theorem scanCategory_ok_some {mdToHtml : List Char → List Char}
    {mdEvents : List Char → List MdEvent} {c : CategoryFs} {cat : Category}
    (h : scanCategory mdToHtml mdEvents c = .ok (some cat)) :
    cat.name = c.name ∧ cat.url = c.name ∧
      List.Pairwise itemOrdered cat.items := by
  unfold scanCategory at h
  cases hsi : scanItemDirs mdToHtml mdEvents c.name c.entries with
  | error e => rw [hsi] at h; simp at h
  | ok items =>
    rw [hsi] at h
    dsimp only at h
    by_cases hcond : items.isEmpty = true ∧ c.indexPresent = false
    · rw [if_pos hcond] at h; simp at h
    · rw [if_neg hcond] at h
      simp only [Except.ok.injEq, Option.some.injEq] at h
      subst h
      refine ⟨rfl, rfl, ?_⟩
      exact (sortItems_sorted items).imp (fun hab => itemLeB_imp_ordered hab)

theorem scanRoot_items_sorted {mdToHtml : List Char → List Char}
    {mdEvents : List Char → List MdEvent} :
    ∀ (l : List CategoryFs) (cats : List Category),
      scanRoot mdToHtml mdEvents l = .ok cats →
      ∀ cat ∈ cats, List.Pairwise itemOrdered cat.items := by
  intro l
  induction l with
  | nil =>
    intro cats h cat hc
    simp only [scanRoot, Except.ok.injEq] at h
    subst h
    simp at hc
  | cons c rest ih =>
    intro cats h cat hc
    rw [scanRoot] at h
    by_cases h1 : c.isDir = false
    · rw [if_pos h1] at h
      exact ih cats h cat hc
    · rw [if_neg h1] at h
      by_cases h2 : startsWithL ['.'] c.name = true
      · rw [if_pos h2] at h
        exact ih cats h cat hc
      · rw [if_neg h2] at h
        cases hsc : scanCategory mdToHtml mdEvents c with
        | error e => rw [hsc] at h; simp at h
        | ok o =>
          rw [hsc] at h
          cases o with
          | none => exact ih cats h cat hc
          | some cat1 =>
            cases hsr : scanRoot mdToHtml mdEvents rest with
            | error e => rw [hsr] at h; simp at h
            | ok cats' =>
              rw [hsr] at h
              simp only [Except.ok.injEq] at h
              subst h
              rcases List.mem_cons.1 hc with rfl | hmem
              · exact (scanCategory_ok_some hsc).2.2
              · exact ih cats' hsr cat hmem

/-- C6: every successful scan returns categories sorted ascending by name,
and within each category the items are sorted by date descending, dated
items before undated ones, undated items ascending by item name. -/
theorem C6_scan_ordering (mdToHtml : List Char → List Char)
    (mdEvents : List Char → List MdEvent) (fs : ContentFs)
    (site : SiteContent) (h : scan mdToHtml mdEvents fs = .ok site) :
    List.Pairwise (fun a b : Category => lexLe a.name b.name = true)
      site.categories ∧
    ∀ c ∈ site.categories, List.Pairwise itemOrdered c.items := by
  unfold scan at h
  by_cases hp : fs.present = false
  · rw [if_pos hp] at h
    simp only [Except.ok.injEq] at h
    subst h
    exact ⟨List.Pairwise.nil, by intro c hc; simp at hc⟩
  · rw [if_neg hp] at h
    cases hsr : scanRoot mdToHtml mdEvents fs.entries with
    | error e => rw [hsr] at h; simp at h
    | ok cats =>
      rw [hsr] at h
      simp only [Except.ok.injEq] at h
      subst h
      constructor
      · exact @List.sorted_insertionSort Category
          (fun a b => lexLe a.name b.name = true) (fun _ _ => inferInstance)
          ⟨fun a b => lexLe_total a.name b.name⟩
          ⟨fun a b c hab hbc => lexLe_trans _ _ _ hab hbc⟩ cats
      · intro c hc
        have hmem : c ∈ cats :=
          (List.perm_insertionSort
            (fun a b : Category => lexLe a.name b.name = true) cats).mem_iff.1 hc
        exact scanRoot_items_sorted fs.entries cats hsr c hmem

/-- Witness for C6: a tree with one category `c` holding undated items in
directories `b` and `a`; the scan sorts the items ascending by name. -/
theorem C6_scan_ordering_witness :
    scan (fun h => h) (fun _ => [])
      ⟨true, [⟨strL "c", true, false, [],
        [⟨strL "b", true, [⟨strL "b.md", false, strL "hi", []⟩], false, []⟩,
         ⟨strL "a", true, [⟨strL "a.md", false, strL "hi", []⟩], false, []⟩]⟩]⟩
      = .ok ⟨[⟨strL "c", strL "c", strL "c/index.md",
          [⟨strL "c", strL "a", strL "a", strL "c-a", strL "c/a/a.md",
            strL "hi", none, none, none, strL "hi", [], []⟩,
           ⟨strL "c", strL "b", strL "b", strL "c-b", strL "c/b/b.md",
            strL "hi", none, none, none, strL "hi", [], []⟩], none⟩]⟩ ∧
    (List.Pairwise (fun a b : Category => lexLe a.name b.name = true)
        (SiteContent.categories ⟨[⟨strL "c", strL "c", strL "c/index.md",
          [⟨strL "c", strL "a", strL "a", strL "c-a", strL "c/a/a.md",
            strL "hi", none, none, none, strL "hi", [], []⟩,
           ⟨strL "c", strL "b", strL "b", strL "c-b", strL "c/b/b.md",
            strL "hi", none, none, none, strL "hi", [], []⟩], none⟩]⟩) ∧
      ∀ c ∈ SiteContent.categories ⟨[⟨strL "c", strL "c", strL "c/index.md",
          [⟨strL "c", strL "a", strL "a", strL "c-a", strL "c/a/a.md",
            strL "hi", none, none, none, strL "hi", [], []⟩,
           ⟨strL "c", strL "b", strL "b", strL "c-b", strL "c/b/b.md",
            strL "hi", none, none, none, strL "hi", [], []⟩], none⟩]⟩,
        List.Pairwise itemOrdered c.items) :=
  ⟨rfl, C6_scan_ordering (fun h => h) (fun _ => [])
    ⟨true, [⟨strL "c", true, false, [],
      [⟨strL "b", true, [⟨strL "b.md", false, strL "hi", []⟩], false, []⟩,
       ⟨strL "a", true, [⟨strL "a.md", false, strL "hi", []⟩], false, []⟩]⟩]⟩
    _ rfl⟩

/-- A content tree with one category `c` containing two item directories
`d1` and `d2`, each holding a markdown file `note.md`. -/
def fsC5 : ContentFs :=
  ⟨true, [⟨strL "c", true, false, [],
    [⟨strL "d1", true, [⟨strL "note.md", false, strL "hi", []⟩], false, []⟩,
     ⟨strL "d2", true, [⟨strL "note.md", false, strL "hi", []⟩], false, []⟩]⟩]⟩

/-- All item url-slugs of a scan result, in order. -/
def itemUrlsOf : Except ScanErr SiteContent → List (List Char)
  | .ok site => ((site.categories.map (fun c => c.items)).join.map (fun it => it.url))
  | .error _ => []

/-- C5 counterexample: two item directories in the same category whose
markdown files share the stem `note` produce two items with the same
url-slug `c-note`, so item slugs are not unique across the tree. -/
theorem C5_duplicate_item_slugs :
    itemUrlsOf (scan (fun h => h) (fun _ => []) fsC5)
      = [strL "c-note", strL "c-note"] ∧
    ¬ ([strL "c-note", strL "c-note"] : List (List Char)).Nodup :=
  ⟨rfl, by decide⟩

theorem scanItem_ok_some {mdToHtml : List Char → List Char}
    {mdEvents : List Char → List MdEvent} {categoryName : List Char}
    {d : ItemDirFs} {itemName : List Char} {f : FsFile} {item : ContentItem}
    (h : scanItem mdToHtml mdEvents categoryName d itemName f
      = .ok (some item)) :
    item.url = categoryName ++ '-' :: itemName := by
  unfold scanItem at h
  by_cases hd : f.isDir = true
  · rw [if_pos hd] at h; simp at h
  · rw [if_neg hd] at h
    cases hp : parseMarkdown mdToHtml f.text with
    | error e => rw [hp] at h; simp at h
    | ok parsed =>
      rw [hp] at h
      simp only [Except.ok.injEq, Option.some.injEq] at h
      subst h
      rfl

theorem scanMdFiles_urls {mdToHtml : List Char → List Char}
    {mdEvents : List Char → List MdEvent} {categoryName : List Char}
    {d : ItemDirFs} :
    ∀ (fl : List FsFile) (items : List ContentItem),
      scanMdFiles mdToHtml mdEvents categoryName d fl = .ok items →
      ∀ it ∈ items, ∃ g ∈ fl, (splitExtL g.name).2 = some (strL "md") ∧
        it.url = categoryName ++ '-' :: (splitExtL g.name).1 := by
  intro fl
  induction fl with
  | nil =>
    intro items h it hit
    simp only [scanMdFiles, Except.ok.injEq] at h
    subst h
    simp at hit
  | cons f rest ih =>
    intro items h it hit
    rw [scanMdFiles] at h
    by_cases hmd : (splitExtL f.name).2 = some (strL "md")
    · rw [if_pos hmd] at h
      cases hsi : scanItem mdToHtml mdEvents categoryName d (splitExtL f.name).1 f with
      | error e => rw [hsi] at h; simp at h
      | ok o =>
        rw [hsi] at h
        cases o with
        | none =>
          rcases ih items h it hit with ⟨g, hg, hgmd, hgurl⟩
          exact ⟨g, by simp [hg], hgmd, hgurl⟩
        | some item1 =>
          cases hrest : scanMdFiles mdToHtml mdEvents categoryName d rest with
          | error e => rw [hrest] at h; simp at h
          | ok items' =>
            rw [hrest] at h
            simp only [Except.ok.injEq] at h
            subst h
            rcases List.mem_cons.1 hit with rfl | hmem
            · exact ⟨f, by simp, hmd, scanItem_ok_some hsi⟩
            · rcases ih items' hrest it hmem with ⟨g, hg, hgmd, hgurl⟩
              exact ⟨g, by simp [hg], hgmd, hgurl⟩
    · rw [if_neg hmd] at h
      rcases ih items h it hit with ⟨g, hg, hgmd, hgurl⟩
      exact ⟨g, by simp [hg], hgmd, hgurl⟩

/-- Within one item directory, the produced item slugs are pairwise
distinct, because the markdown file names are distinct and a slug
determines the file stem. -/
theorem scanMdFiles_urls_nodup {mdToHtml : List Char → List Char}
    {mdEvents : List Char → List MdEvent} {categoryName : List Char}
    {d : ItemDirFs} :
    ∀ (fl : List FsFile) (items : List ContentItem),
      (fl.map (fun f => f.name)).Nodup →
      scanMdFiles mdToHtml mdEvents categoryName d fl = .ok items →
      (items.map (fun it => it.url)).Nodup := by
  intro fl
  induction fl with
  | nil =>
    intro items _ h
    simp only [scanMdFiles, Except.ok.injEq] at h
    subst h
    simp
  | cons f rest ih =>
    intro items hnd h
    simp only [List.map_cons, List.nodup_cons] at hnd
    rw [scanMdFiles] at h
    by_cases hmd : (splitExtL f.name).2 = some (strL "md")
    · rw [if_pos hmd] at h
      cases hsi : scanItem mdToHtml mdEvents categoryName d (splitExtL f.name).1 f with
      | error e => rw [hsi] at h; simp at h
      | ok o =>
        rw [hsi] at h
        cases o with
        | none => exact ih items hnd.2 h
        | some item1 =>
          cases hrest : scanMdFiles mdToHtml mdEvents categoryName d rest with
          | error e => rw [hrest] at h; simp at h
          | ok items' =>
            rw [hrest] at h
            simp only [Except.ok.injEq] at h
            subst h
            simp only [List.map_cons, List.nodup_cons]
            refine ⟨?_, ih items' hnd.2 hrest⟩
            intro hcon
            rcases List.mem_map.1 hcon with ⟨it, hit, hurl⟩
            rcases scanMdFiles_urls rest items' hrest it hit
              with ⟨g, hg, hgmd, hgurl⟩
            have hurl1 : item1.url = categoryName ++ '-' :: (splitExtL f.name).1 :=
              scanItem_ok_some hsi
            have hstem : (splitExtL g.name).1 = (splitExtL f.name).1 := by
              have heq : categoryName ++ '-' :: (splitExtL g.name).1
                  = categoryName ++ '-' :: (splitExtL f.name).1 :=
                hgurl.symm.trans (hurl.trans hurl1)
              have h2 := List.append_cancel_left heq
              injection h2
            have hname : g.name = f.name := by
              rw [splitExtL_reconstruct hgmd, splitExtL_reconstruct hmd, hstem]
            exact hnd.1 (by
              rcases List.mem_map.1 (List.mem_map_of_mem (fun x => x.name) hg)
                with ⟨g', hg', heq⟩
              rw [← hname]
              exact List.mem_map_of_mem (fun x => x.name) hg)
    · rw [if_neg hmd] at h
      exact ih items hnd.2 h

theorem scanCategory_url {mdToHtml : List Char → List Char}
    {mdEvents : List Char → List MdEvent} {c : CategoryFs} {cat : Category}
    (h : scanCategory mdToHtml mdEvents c = .ok (some cat)) :
    cat.url = c.name :=
  (scanCategory_ok_some h).2.1

theorem scanRoot_urls_sublist {mdToHtml : List Char → List Char}
    {mdEvents : List Char → List MdEvent} :
    ∀ (l : List CategoryFs) (cats : List Category),
      scanRoot mdToHtml mdEvents l = .ok cats →
      (cats.map (fun c => c.url)).Sublist (l.map (fun c => c.name)) := by
  intro l
  induction l with
  | nil =>
    intro cats h
    simp only [scanRoot, Except.ok.injEq] at h
    subst h
    simp
  | cons c rest ih =>
    intro cats h
    rw [scanRoot] at h
    by_cases h1 : c.isDir = false
    · rw [if_pos h1] at h
      exact (ih cats h).trans (List.sublist_cons_self _ _)
    · rw [if_neg h1] at h
      by_cases h2 : startsWithL ['.'] c.name = true
      · rw [if_pos h2] at h
        exact (ih cats h).trans (List.sublist_cons_self _ _)
      · rw [if_neg h2] at h
        cases hsc : scanCategory mdToHtml mdEvents c with
        | error e => rw [hsc] at h; simp at h
        | ok o =>
          rw [hsc] at h
          cases o with
          | none => exact (ih cats h).trans (List.sublist_cons_self _ _)
          | some cat1 =>
            cases hsr : scanRoot mdToHtml mdEvents rest with
            | error e => rw [hsr] at h; simp at h
            | ok cats' =>
              rw [hsr] at h
              simp only [Except.ok.injEq] at h
              subst h
              simp only [List.map_cons]
              rw [scanCategory_url hsc]
              exact List.Sublist.cons₂ c.name (ih cats' hsr)

/-- C5 amended: category url-slugs are pairwise distinct (the directory
entry names of the content root are distinct), and the item slugs produced
from a single item directory are pairwise distinct; uniqueness across
different item directories is not enforced (see the counterexample). -/
theorem C5_slug_uniqueness_amended (mdToHtml : List Char → List Char)
    (mdEvents : List Char → List MdEvent) (fs : ContentFs) (site : SiteContent)
    (hroot : (fs.entries.map (fun c => c.name)).Nodup)
    (h : scan mdToHtml mdEvents fs = .ok site) :
    (site.categories.map (fun c => c.url)).Nodup ∧
    (∀ (categoryName : List Char) (d : ItemDirFs) (fl : List FsFile)
        (items : List ContentItem),
      (fl.map (fun f => f.name)).Nodup →
      scanMdFiles mdToHtml mdEvents categoryName d fl = .ok items →
      (items.map (fun it => it.url)).Nodup) := by
  constructor
  · unfold scan at h
    by_cases hp : fs.present = false
    · rw [if_pos hp] at h
      simp only [Except.ok.injEq] at h
      subst h
      simp
    · rw [if_neg hp] at h
      cases hsr : scanRoot mdToHtml mdEvents fs.entries with
      | error e => rw [hsr] at h; simp at h
      | ok cats =>
        rw [hsr] at h
        simp only [Except.ok.injEq] at h
        subst h
        have hnd : (cats.map (fun c => c.url)).Nodup :=
          (scanRoot_urls_sublist fs.entries cats hsr).nodup hroot
        have hperm : (List.insertionSort
            (fun a b : Category => lexLe a.name b.name = true) cats).Perm cats :=
          List.perm_insertionSort _ cats
        exact ((hperm.map (fun c => c.url)).symm).nodup hnd
  · intro categoryName d fl items hnd hml
    exact scanMdFiles_urls_nodup fl items hnd hml

/-- Witness for the amended C5: the category slugs of a two-category tree
are distinct, and the slugs from one directory with files `a.md`, `b.md`
are distinct. -/
theorem C5_slug_uniqueness_amended_witness :
    (((SiteContent.categories
      ⟨[⟨strL "x", strL "x", strL "x/index.md", [], some (strL "dx")⟩,
        ⟨strL "y", strL "y", strL "y/index.md", [], some (strL "dy")⟩]⟩).map
        (fun c => c.url)).Nodup) := by
  have h := C5_slug_uniqueness_amended (fun h => h) (fun _ => [])
    ⟨true, [⟨strL "x", true, true, strL "---\x0adescription: dx\x0a---\x0a", []⟩,
            ⟨strL "y", true, true, strL "---\x0adescription: dy\x0a---\x0a", []⟩]⟩
    ⟨[⟨strL "x", strL "x", strL "x/index.md", [], some (strL "dx")⟩,
      ⟨strL "y", strL "y", strL "y/index.md", [], some (strL "dy")⟩]⟩
    (by decide) rfl
  exact h.1

/-- C10: if the content directory does not exist, `scan` succeeds with an
empty category list (no `IoError`). -/
theorem C10_scan_missing_dir (mdToHtml : List Char → List Char)
    (mdEvents : List Char → List MdEvent) (entries : List CategoryFs) :
    scan mdToHtml mdEvents ⟨false, entries⟩ = .ok ⟨[]⟩ := rfl

/-! ## Storage engine (`storage.rs`): pages and search -/

/-- Embedding of the `PageType` enum. -/
inductive PageType where
  | index
  | category
  | item
deriving DecidableEq

/-- Embedding of the `Page` struct. `updatedAt` is the RFC3339 string the
code stores; SQLite compares TEXT by bytes, which on these strings is
`lexLe`. -/
structure Page where
  id : List Char
  slug : List Char
  pageType : PageType
  title : List Char
  content : List Char
  category : Option (List Char)
  updatedAt : List Char
deriving DecidableEq

/-- SQLite `LIKE '%q%'` for a query without LIKE metacharacters:
substring match, case-insensitive on ASCII letters. -/
def containsCI (q s : List Char) : Bool :=
  containsL (q.map asciiLowerChar) (s.map asciiLowerChar)

/-- The query carries no LIKE metacharacters (`%`, `_`), so the pattern
`%q%` is a plain substring match. -/
def noLikeMeta (q : List Char) : Bool :=
  q.all (fun c => !(c == '%') && !(c == '_'))

/-- The WHERE clause of `search_pages` / `search_pages_count`:
`(title LIKE %q% OR content LIKE %q%) AND page_type != 'index'`. -/
def searchMatch (q : List Char) (p : Page) : Bool :=
  (containsCI q p.title || containsCI q p.content)
    && decide (p.pageType ≠ PageType.index)

/-- The ORDER BY CASE of `search_pages`. Both WHEN branches test the same
pattern `%q%` against the title (the third and fourth bound parameters are
both `format!("%{}%", query)`), so the score is 2 for any title match and
the branch yielding 1 is unreachable. -/
def searchScore (q : List Char) (p : Page) : Nat :=
  if containsCI q p.title = true then 2
  else if containsCI q p.title = true then 1
  else 0

/-- The ORDER BY key: score descending, then `updated_at` descending. -/
def searchLe (q : List Char) (a b : Page) : Bool :=
  if searchScore q b < searchScore q a then true
  else if searchScore q a < searchScore q b then false
  else lexLe b.updatedAt a.updatedAt

/-- Embedding of `StorageDB::search_pages` over the table rows `pages`
(modelled as a list; SQLite's tie order is unspecified, the model uses the
stable sort). -/
def searchPages (pages : List Page) (q : List Char) (limit : Nat) : List Page :=
  (List.insertionSort (fun a b => searchLe q a b = true)
    (pages.filter (searchMatch q))).take limit

/-- Embedding of `StorageDB::search_pages_count` (no limit parameter). -/
def searchPagesCount (pages : List Page) (q : List Char) : Nat :=
  (pages.filter (searchMatch q)).length

/-- The ranking stated by the spec, as a score: 2 for an exact title
match, 1 for a title prefix match, 0 otherwise. -/
def specSearchScore (q : List Char) (p : Page) : Nat :=
  if p.title = q then 2
  else if startsWithL q p.title = true then 1
  else 0

def specSearchLe (q : List Char) (a b : Page) : Bool :=
  if specSearchScore q b < specSearchScore q a then true
  else if specSearchScore q a < specSearchScore q b then false
  else lexLe b.updatedAt a.updatedAt

/-- `search_pages` as the spec describes its ranking, for comparison. -/
def specSearchPages (pages : List Page) (q : List Char) (limit : Nat) :
    List Page :=
  (List.insertionSort (fun a b => specSearchLe q a b = true)
    (pages.filter (searchMatch q))).take limit

/-- An old item page whose title contains the query as an inner substring. -/
def pageA : Page :=
  ⟨strL "idA", strL "a", PageType.item, strL "barfoo", strL "body",
    none, strL "2020-01-01T00:00:00+00:00"⟩

/-- A newer item page matching the query only in its content. -/
def pageB : Page :=
  ⟨strL "idB", strL "b", PageType.item, strL "zzz", strL "a foo here",
    none, strL "2024-01-01T00:00:00+00:00"⟩

/-- C4 counterexample: under the claimed ranking (exact-title first,
prefix-title second, the rest by recency) the newer content-only match
`pageB` would precede `pageA`, whose title contains `foo` only as an inner
substring; the code ranks any title-substring match first, returning
`[pageA, pageB]`. -/
theorem C4_ranking_counterexample :
    searchPages [pageA, pageB] (strL "foo") 10 = [pageA, pageB] ∧
    specSearchPages [pageA, pageB] (strL "foo") 10 = [pageB, pageA] :=
  ⟨rfl, rfl⟩

theorem searchLe_elim {q : List Char} {a b : Page}
    (h : searchLe q a b = true) :
    searchScore q b ≤ searchScore q a ∧
      (searchScore q a = searchScore q b →
        lexLe b.updatedAt a.updatedAt = true) := by
  unfold searchLe at h
  by_cases h1 : searchScore q b < searchScore q a
  · exact ⟨le_of_lt h1, fun he => by omega⟩
  · rw [if_neg h1] at h
    by_cases h2 : searchScore q a < searchScore q b
    · rw [if_pos h2] at h; cases h
    · rw [if_neg h2] at h
      exact ⟨by omega, fun _ => h⟩

theorem searchLe_total (q : List Char) : ∀ a b : Page,
    searchLe q a b = true ∨ searchLe q b a = true := by
  intro a b
  unfold searchLe
  rcases lt_trichotomy (searchScore q a) (searchScore q b) with h | h | h
  · right
    rw [if_pos h]
  · rw [h]
    rcases lexLe_total b.updatedAt a.updatedAt with hl | hl
    · left
      rw [if_neg (lt_irrefl _), if_neg (lt_irrefl _)]
      exact hl
    · right
      rw [if_neg (lt_irrefl _), if_neg (lt_irrefl _)]
      exact hl
  · left
    rw [if_pos h]

theorem searchLe_trans (q : List Char) : ∀ a b c : Page,
    searchLe q a b = true → searchLe q b c = true → searchLe q a c = true := by
  intro a b c h1 h2
  rcases searchLe_elim h1 with ⟨hle1, heq1⟩
  rcases searchLe_elim h2 with ⟨hle2, heq2⟩
  unfold searchLe
  by_cases h3 : searchScore q c < searchScore q a
  · rw [if_pos h3]
  · have hba : searchScore q a = searchScore q b := by omega
    have hcb : searchScore q b = searchScore q c := by omega
    rw [if_neg h3, if_neg (by omega)]
    exact lexLe_trans _ _ _ (heq2 hcb) (heq1 hba)

/-- C4 amended: `search_pages` returns (up to `limit`) exactly the
non-index pages whose title or content contains the query
(ASCII-case-insensitive substring), ranked with title-substring matches
first and everything else after, each group ordered by `updated_at`
descending — there is no exact-title/prefix-title distinction; and
`search_pages_count` is the total number of matching rows, independent of
any limit. -/
theorem C4_search_pages_amended (pages : List Page) (q : List Char)
    (limit : Nat) (hq : noLikeMeta q = true) :
    (∀ p ∈ searchPages pages q limit, searchMatch q p = true ∧ p ∈ pages) ∧
    List.Pairwise (fun a b =>
        searchScore q b ≤ searchScore q a ∧
        (searchScore q a = searchScore q b →
          lexLe b.updatedAt a.updatedAt = true))
      (searchPages pages q limit) ∧
    List.Pairwise (fun a b =>
        containsCI q b.title = true → containsCI q a.title = true)
      (searchPages pages q limit) ∧
    (searchPages pages q limit).length = min limit (searchPagesCount pages q) := by
  have hsorted : List.Pairwise (fun a b => searchLe q a b = true)
      (List.insertionSort (fun a b => searchLe q a b = true)
        (pages.filter (searchMatch q))) :=
    @List.sorted_insertionSort Page (fun a b => searchLe q a b = true)
      (fun _ _ => inferInstance) ⟨searchLe_total q⟩ ⟨searchLe_trans q⟩ _
  have hpair : List.Pairwise (fun a b =>
      searchScore q b ≤ searchScore q a ∧
      (searchScore q a = searchScore q b →
        lexLe b.updatedAt a.updatedAt = true)) (searchPages pages q limit) :=
    ((hsorted.sublist (List.take_sublist _ _)).imp
      (fun hab => searchLe_elim hab))
  refine ⟨?_, hpair, ?_, ?_⟩
  · intro p hp
    have hmem : p ∈ List.insertionSort (fun a b => searchLe q a b = true)
        (pages.filter (searchMatch q)) :=
      (List.take_sublist _ _).subset hp
    have hmem2 : p ∈ pages.filter (searchMatch q) :=
      (List.perm_insertionSort _ _).mem_iff.1 hmem
    have := List.mem_filter.1 hmem2
    exact ⟨this.2, this.1⟩
  · refine hpair.imp ?_
    intro a b hab htit
    by_contra hta
    have hta' : containsCI q a.title = false := by
      cases h : containsCI q a.title with
      | false => rfl
      | true => exact absurd h hta
    have ha0 : searchScore q a = 0 := by simp [searchScore, hta']
    have hb2 : searchScore q b = 2 := by simp [searchScore, htit]
    have hle := hab.1
    rw [ha0, hb2] at hle
    omega
  · unfold searchPages searchPagesCount
    rw [List.length_take,
      (List.perm_insertionSort (fun a b => searchLe q a b = true)
        (pages.filter (searchMatch q))).length_eq]

/-- Witness for the amended C4 on concrete rows with `limit = 1`. -/
theorem C4_search_pages_amended_witness :
    noLikeMeta (strL "foo") = true ∧
    (searchPages [pageA, pageB] (strL "foo") 1).length
      = min 1 (searchPagesCount [pageA, pageB] (strL "foo")) :=
  ⟨by decide,
    (C4_search_pages_amended [pageA, pageB] (strL "foo") 1 (by decide)).2.2.2⟩

/-! ## Compiler orchestrator (`compiler.rs`) and batch persistence -/

/-- Embedding of the `StoredAttachment` struct. -/
structure StoredAttachment where
  id : List Char
  slug : List Char
  filename : List Char
  originalName : List Char
  mimeType : List Char
  fileData : List Nat
  fileSize : Nat
  updatedAt : List Char
deriving DecidableEq

/-- The three relations of the storage database. -/
structure StorageState where
  pages : List Page
  attachments : List StoredAttachment
  metadata : List (List Char × List Char)
deriving DecidableEq

/-- Compile-stage error taxonomy: a propagated scanner error, a renderer
error, or a storage/transaction error. -/
inductive CompErr where
  | scanFail (e : ScanErr)
  | render
  | storage
deriving DecidableEq

/-- `INSERT OR REPLACE` on `pages`: a conflicting row on either unique key
(`id` primary key, `slug` unique) is replaced. -/
def upsertPage (rows : List Page) (p : Page) : List Page :=
  (rows.filter (fun q => !(q.id == p.id) && !(q.slug == p.slug))) ++ [p]

/-- `INSERT OR REPLACE` on `attachments` (`id` primary key). -/
def upsertAttachment (rows : List StoredAttachment) (a : StoredAttachment) :
    List StoredAttachment :=
  (rows.filter (fun q => !(q.id == a.id))) ++ [a]

/-- `INSERT OR REPLACE` on `site_metadata` (`key` primary key). -/
def upsertMeta (rows : List (List Char × List Char))
    (kv : List Char × List Char) : List (List Char × List Char) :=
  (rows.filter (fun q => !(q.1 == kv.1))) ++ [kv]

/-- `save_pages_batch`: one transaction of upserts, each row stamped with
a fresh `now`; `ok = false` injects a transaction failure, which rolls the
whole batch back (the storage state is unchanged). -/
def savePagesBatch (ok : Bool) (now : List Char) (st : StorageState)
    (ps : List Page) : Except CompErr StorageState :=
  if ok = true then
    .ok { st with
          pages := ps.foldl
            (fun acc p => upsertPage acc { p with updatedAt := now }) st.pages }
  else .error .storage

/-- `save_attachments_batch`, analogous to `savePagesBatch`. -/
def saveAttachmentsBatch (ok : Bool) (now : List Char) (st : StorageState)
    (as_ : List StoredAttachment) : Except CompErr StorageState :=
  if ok = true then
    .ok { st with
          attachments := as_.foldl
            (fun acc a => upsertAttachment acc { a with updatedAt := now })
            st.attachments }
  else .error .storage

/-- `update_compile_time`: upsert of the `last_compiled` metadata row. -/
def updateCompileTime (ok : Bool) (now : List Char) (st : StorageState) :
    Except CompErr StorageState :=
  if ok = true then
    .ok { st with metadata := upsertMeta st.metadata (strL "last_compiled", now) }
  else .error .storage

/-- Embedding of the `CompileResult` struct. -/
structure CompileResult where
  success : Bool
  generatedFiles : List (List Char)
  totalCategories : Nat
  totalItems : Nat
  totalAttachments : Nat
deriving DecidableEq

/-- The per-item part of the compile loop: render the item, rewrite the
attachment links in the rendered HTML, and build the item `Page` and the
`StoredAttachment` records. -/
def buildItemArtifacts (rItem : ContentItem → Except Unit (List Char))
    (now : List Char) :
    List ContentItem → Except CompErr (List Page × List StoredAttachment × Nat)
  | [] => .ok ([], [], 0)
  | it :: rest =>
    match rItem it with
    | .error _ => .error .render
    | .ok rawHtml =>
      let itemHtml := replaceAttachmentLinks rawHtml
        (it.attachments.map (fun a => (a.originalName, a.newName)))
      let page : Page := ⟨strL "item-" ++ it.url, it.url, PageType.item,
        it.title, itemHtml, some it.category, now⟩
      let atts := it.attachments.map (fun a =>
        (⟨strL "attachment-" ++ a.newName, it.url, a.newName, a.originalName,
          a.mimeType, a.fileData, a.fileSize, now⟩ : StoredAttachment))
      match buildItemArtifacts rItem now rest with
      | .error e => .error e
      | .ok pr => .ok (page :: pr.1, atts ++ pr.2.1, atts.length + pr.2.2)

/-- The per-category part of the compile loop. -/
def buildCategoryArtifacts (rCat : Category → Except Unit (List Char))
    (rItem : ContentItem → Except Unit (List Char)) (now : List Char) :
    List Category → Except CompErr (List Page × List StoredAttachment × Nat)
  | [] => .ok ([], [], 0)
  | c :: rest =>
    match rCat c with
    | .error _ => .error .render
    | .ok catHtml =>
      let catPage : Page := ⟨strL "category-" ++ c.url, c.url, PageType.category,
        c.name, catHtml, none, now⟩
      match buildItemArtifacts rItem now c.items with
      | .error e => .error e
      | .ok itemArts =>
        match buildCategoryArtifacts rCat rItem now rest with
        | .error e => .error e
        | .ok restArts =>
          .ok (catPage :: itemArts.1 ++ restArts.1,
            itemArts.2.1 ++ restArts.2.1, itemArts.2.2 + restArts.2.2)

/-- Embedding of `Compiler::compile`: scan, render everything into
in-memory page/attachment lists, then persist — pages in one transaction,
attachments in a second one (skipped when empty), then the `last_compiled`
metadata. `scanRes` is the scanner's result; `rIdx`, `rCat`, `rItem` are
the renderer collaborators; the `Ok` flags inject storage transaction
faults; the pair returned is the call's result and the storage state it
leaves behind. -/
def compile (scanRes : Except ScanErr SiteContent)
    (rIdx : SiteContent → Except Unit (List Char))
    (rCat : Category → Except Unit (List Char))
    (rItem : ContentItem → Except Unit (List Char))
    (siteTitle now nowMeta : List Char)
    (pagesOk attachmentsOk metaOk : Bool) (st : StorageState) :
    Except CompErr CompileResult × StorageState :=
  match scanRes with
  | .error e => (.error (.scanFail e), st)
  | .ok site =>
    match rIdx site with
    | .error _ => (.error .render, st)
    | .ok indexHtml =>
      match buildCategoryArtifacts rCat rItem now site.categories with
      | .error e => (.error e, st)
      | .ok arts =>
        let pagesToSave := (⟨strL "index", strL "index", PageType.index,
          siteTitle, indexHtml, none, now⟩ : Page) :: arts.1
        match savePagesBatch pagesOk now st pagesToSave with
        | .error e => (.error e, st)
        | .ok st1 =>
          match (if arts.2.1.isEmpty = true then .ok st1
            else saveAttachmentsBatch attachmentsOk now st1 arts.2.1) with
          | .error e => (.error e, st1)
          | .ok st2 =>
            match updateCompileTime metaOk nowMeta st2 with
            | .error e => (.error e, st2)
            | .ok st3 =>
              (.ok ⟨true, [], site.categories.length,
                (site.categories.map (fun c => c.items.length)).sum,
                arts.2.2⟩, st3)

/-- A one-category, one-item, one-attachment site used as the concrete
scan result in the C3 counterexample. -/
def siteC3 : SiteContent :=
  ⟨[⟨strL "fruit", strL "fruit", strL "fruit/index.md",
    [⟨strL "fruit", strL "apple", strL "apple", strL "fruit-apple",
      strL "fruit/apple/apple.md", strL "Apple", none, none, none, strL "H",
      [⟨strL "pic.jpg", strL "apple_1.jpg", strL "jpg",
        strL "attachment/apple_1.jpg", [1], 1, strL "image/jpeg"⟩], []⟩],
    none⟩]⟩

/-- C3 counterexample: when the attachment transaction fails after the
pages transaction committed, `compile` fails but the pages stored before
the compile are no longer unchanged — the new pages are already persisted.
So "nothing already computed is persisted" does not hold for Storage
Engine errors. -/
theorem C3_pages_persist_on_attachment_failure :
    (compile (.ok siteC3) (fun _ => .ok (strL "I")) (fun _ => .ok (strL "C"))
      (fun _ => .ok (strL "H")) (strL "T") (strL "N") (strL "M")
      true false true ⟨[], [], []⟩).1 = .error CompErr.storage ∧
    (compile (.ok siteC3) (fun _ => .ok (strL "I")) (fun _ => .ok (strL "C"))
      (fun _ => .ok (strL "H")) (strL "T") (strL "N") (strL "M")
      true false true ⟨[], [], []⟩).2.pages
      ≠ (⟨[], [], []⟩ : StorageState).pages :=
  ⟨rfl, by decide⟩

/-- C3 amended: a scanner error propagates as the compile's error with the
storage completely untouched; when no storage transaction fails, any
compile error (necessarily from the scanner or a renderer) leaves the
storage unchanged — persistence only happens after scan and render succeed
in full; a failing pages transaction leaves the storage unchanged (no
partial page is written); and a failing attachments transaction leaves the
attachments relation unchanged, though earlier transactions of the same
compile (the pages batch) remain committed. -/
theorem C3_compile_persistence_amended (scanRes : Except ScanErr SiteContent)
    (rIdx : SiteContent → Except Unit (List Char))
    (rCat : Category → Except Unit (List Char))
    (rItem : ContentItem → Except Unit (List Char))
    (siteTitle now nowMeta : List Char)
    (pagesOk attachmentsOk metaOk : Bool) (st : StorageState) :
    (∀ e, scanRes = .error e →
      compile scanRes rIdx rCat rItem siteTitle now nowMeta
        pagesOk attachmentsOk metaOk st = (.error (.scanFail e), st)) ∧
    (pagesOk = true → attachmentsOk = true → metaOk = true →
      ∀ e, (compile scanRes rIdx rCat rItem siteTitle now nowMeta
          pagesOk attachmentsOk metaOk st).1 = .error e →
        (compile scanRes rIdx rCat rItem siteTitle now nowMeta
          pagesOk attachmentsOk metaOk st).2 = st) ∧
    (pagesOk = false →
      (compile scanRes rIdx rCat rItem siteTitle now nowMeta
        pagesOk attachmentsOk metaOk st).2 = st) ∧
    (attachmentsOk = false →
      (compile scanRes rIdx rCat rItem siteTitle now nowMeta
        pagesOk attachmentsOk metaOk st).2.attachments = st.attachments) := by
  refine ⟨?_, ?_, ?_, ?_⟩
  · intro e he
    rw [he]
    rfl
  · intro hp ha hm e
    subst hp; subst ha; subst hm
    unfold compile
    cases scanRes with
    | error e1 => intro _; rfl
    | ok site =>
      dsimp only
      cases rIdx site with
      | error u => intro _; rfl
      | ok indexHtml =>
        dsimp only
        cases buildCategoryArtifacts rCat rItem now site.categories with
        | error e1 => intro _; rfl
        | ok arts =>
          dsimp only
          rw [savePagesBatch, if_pos rfl]
          dsimp only
          by_cases hemp : arts.2.1.isEmpty = true
          · rw [if_pos hemp]
            dsimp only
            rw [updateCompileTime, if_pos rfl]
            intro hcon
            cases hcon
          · rw [if_neg hemp]
            rw [saveAttachmentsBatch, if_pos rfl]
            dsimp only
            rw [updateCompileTime, if_pos rfl]
            intro hcon
            cases hcon
  · intro hp
    subst hp
    unfold compile
    cases scanRes with
    | error e1 => rfl
    | ok site =>
      dsimp only
      cases rIdx site with
      | error u => rfl
      | ok indexHtml =>
        dsimp only
        cases buildCategoryArtifacts rCat rItem now site.categories with
        | error e1 => rfl
        | ok arts =>
          dsimp only
          rw [savePagesBatch]
          rfl
  · intro ha
    subst ha
    unfold compile
    cases scanRes with
    | error e1 => rfl
    | ok site =>
      dsimp only
      cases rIdx site with
      | error u => rfl
      | ok indexHtml =>
        dsimp only
        cases buildCategoryArtifacts rCat rItem now site.categories with
        | error e1 => rfl
        | ok arts =>
          dsimp only
          cases hpb : savePagesBatch pagesOk now st
              ((⟨strL "index", strL "index", PageType.index,
                siteTitle, indexHtml, none, now⟩ : Page) :: arts.1) with
          | error e1 => rfl
          | ok st1 =>
            have hst1 : st1.attachments = st.attachments := by
              unfold savePagesBatch at hpb
              by_cases hok : pagesOk = true
              · rw [if_pos hok] at hpb
                simp only [Except.ok.injEq] at hpb
                rw [← hpb]
              · rw [if_neg hok] at hpb
                cases hpb
            dsimp only
            by_cases hemp : arts.2.1.isEmpty = true
            · rw [if_pos hemp]
              dsimp only
              cases hmu : updateCompileTime metaOk nowMeta st1 with
              | error e1 => exact hst1
              | ok st3 =>
                have : st3.attachments = st1.attachments := by
                  unfold updateCompileTime at hmu
                  by_cases hok : metaOk = true
                  · rw [if_pos hok] at hmu
                    simp only [Except.ok.injEq] at hmu
                    rw [← hmu]
                  · rw [if_neg hok] at hmu
                    cases hmu
                rw [this]
                exact hst1
            · rw [if_neg hemp]
              rw [saveAttachmentsBatch, if_neg (by simp)]
              exact hst1

/-- Witness for the amended C3: a scanner `IoError` propagates with the
storage untouched, and with a failing pages transaction the storage is
likewise untouched. -/
theorem C3_compile_persistence_amended_witness :
    compile (.error ScanErr.io) (fun _ => .ok (strL "I"))
      (fun _ => .ok (strL "C")) (fun _ => .ok (strL "H"))
      (strL "T") (strL "N") (strL "M") true true true ⟨[], [], []⟩
      = (.error (.scanFail ScanErr.io), ⟨[], [], []⟩) ∧
    (compile (.ok siteC3) (fun _ => .ok (strL "I")) (fun _ => .ok (strL "C"))
      (fun _ => .ok (strL "H")) (strL "T") (strL "N") (strL "M")
      false true true ⟨[], [], []⟩).2 = (⟨[], [], []⟩ : StorageState) :=
  ⟨(C3_compile_persistence_amended (.error ScanErr.io) (fun _ => .ok (strL "I"))
      (fun _ => .ok (strL "C")) (fun _ => .ok (strL "H"))
      (strL "T") (strL "N") (strL "M") true true true ⟨[], [], []⟩).1
      ScanErr.io rfl,
    (C3_compile_persistence_amended (.ok siteC3) (fun _ => .ok (strL "I"))
      (fun _ => .ok (strL "C")) (fun _ => .ok (strL "H"))
      (strL "T") (strL "N") (strL "M") false true true ⟨[], [], []⟩).2.2.1 rfl⟩

end AnanBlog
